import Mathlib

/-!
# Verification of the arqvist directory-cache subsystem

Shallow embedding of the `DirCache` / `CacheFile` / `ArchiveFile` subsystem of
the arqvist repository (`arqvist/core.py` and `arqvist/cache.py`), together
with proofs settling the specification claims about it.

Modelling conventions:

* Python strings are Lean `String`; `str.split(c)` / `c.join(...)` are modelled
  by `splitCh` / `joinCh` over the underlying character lists.
* Paths handled by `DirCache` are modelled as lists of components
  (`RelPath`); the cache root directory corresponds to the empty list, so
  `os.path.relpath(f, dirn)` for a walked path is the identity.  The cache is
  always checked against its own source directory (`dirn=None` in the source).
* The filesystem is a finite tree of named nodes (`FSNode`); `os.walk` is
  modelled by `osWalk`, which (like the real `os.walk` with default arguments)
  visits every directory of the tree top-down and does not follow symlinks.
  Symlinks are leaf nodes; whether a symlink to a directory is reported in
  `dirnames` or `filenames` only affects the relative order of yielded paths,
  which none of the proved properties depend on.
* `datetime` instants are modelled as abstract `Nat` values whose textual
  form (`str(...)` / `dateutil.parser.parse(...)`) is their decimal numeral:
  a valid serialized instant parses back to an equal instant, and parsing of
  a non-instant string fails, exactly as for the real datetime strings.
* MD5 digests are not recomputed: each filesystem entry carries the digest of
  its content and of its decompressed content as data
  (`contentDigest` / `uncompContentDigest`), since *which* digest the code
  stores and compares is what the claims are about, not the hash itself.
-/

namespace Arqvist

/-! ## Python string primitives -/

/-- Python `s.split(sep)` for a one-character separator, over character
lists.  Always returns a non-empty list; splitting the empty string yields
`[[]]`, i.e. `[""]`, as in Python. -/
def splitCh (sep : Char) : List Char → List (List Char)
  | [] => [[]]
  | c :: cs =>
    match splitCh sep cs with
    | [] => [[]]
    | g :: gs => if c = sep then [] :: g :: gs else (c :: g) :: gs

/-- Python `sep.join(groups)` for a one-character separator. -/
def joinCh (sep : Char) : List (List Char) → List Char
  | [] => []
  | [g] => g
  | g :: h :: gs => g ++ sep :: joinCh sep (h :: gs)

/-- `str.split` on `String`. -/
def pySplit (sep : Char) (s : String) : List String :=
  (splitCh sep s.data).map String.mk

/-- `str.join` on `String`. -/
def pyJoin (sep : Char) (xs : List String) : String :=
  String.mk (joinCh sep (xs.map String.data))

theorem splitCh_ne_nil (sep : Char) (cs : List Char) : splitCh sep cs ≠ [] := by
  cases cs with
  | nil => simp [splitCh]
  | cons c cs =>
    simp only [splitCh]
    cases h : splitCh sep cs with
    | nil => simp
    | cons g gs =>
      by_cases hc : c = sep <;> simp [hc]

/-! ## `get_file_extensions` (arqvist/core.py) -/

/-- Model of `os.path.basename`: the part of the path after the last `/`. -/
def osBasename (p : String) : String :=
  (pySplit '/' p).getLastD ""

/-- `get_file_extensions(filen)` from `arqvist/core.py`:

```
ext = ''
compression = ''
file_parts = os.path.basename(filen).split('.')
if file_parts[-1] in ('gz','bz2'):
    compression = file_parts[-1]
    file_parts = file_parts[:-1]
if len(file_parts) > 1:
    ext = file_parts[-1]
return (ext,compression)
```
-/
def get_file_extensions (filen : String) : String × String :=
  let file_parts := pySplit '.' (osBasename filen)
  let last := file_parts.getLastD ""
  if last = "gz" ∨ last = "bz2" then
    let rest := file_parts.dropLast
    ((if rest.length > 1 then rest.getLastD "" else ""), last)
  else
    ((if file_parts.length > 1 then file_parts.getLastD "" else ""), "")

/-! ## `ArchiveFile` (arqvist/core.py)

The Python object wraps one filesystem entry.  Its state at the time one of
its properties is read is captured by the fields below.  `ext` and
`compression` are instance attributes: the constructor initialises them from
the file name (`ArchiveFile.fromPath`), but they remain ordinary mutable
attributes afterwards (e.g. `compress()` reassigns `compression`). -/

structure ArchiveFile where
  path : String
  /-- `"f"` regular file, `"d"` directory, `"s"` symlink (the `type`
  property; symlink test comes first in the source). -/
  ftype : String
  size : Int
  timestamp : Nat
  mode : String
  uid : Int
  gid : Int
  readable : Bool
  linkTarget : String
  ext : String
  compression : String
  /-- digest of the file content (model of `Md5sum.md5sum(self.path)`). -/
  contentDigest : String
  /-- digest of the decompressed content (model of `Md5sum.md5sum(fp)` for
  the transparently decompressing `fp`). -/
  uncompContentDigest : String
deriving DecidableEq, Repr

def ArchiveFile.is_link (f : ArchiveFile) : Bool := f.ftype = "s"

def ArchiveFile.is_dir (f : ArchiveFile) : Bool := f.ftype = "d"

/-- `ArchiveFile.md5`: `None` for symlinks and directories, else the digest
of the file content. -/
def ArchiveFile.md5 (f : ArchiveFile) : Option String :=
  if f.is_link || f.is_dir then none
  else some f.contentDigest

/-- `ArchiveFile.uncompressed_md5`.  The result type records whether the
property raises (`Except.error`) or returns a value (`Except.ok`).  The
source returns `None` for symlinks/directories, the plain `md5` when
`self.compression` is empty, the digest of the decompressed stream for
`bz2` and `gz`, and for any other compression value it only calls
`logging.warning(...)` and falls through to return the still-unset
`self._uncompressed_md5`, i.e. `None` — no exception is raised on any
branch. -/
def ArchiveFile.uncompressed_md5 (f : ArchiveFile) : Except String (Option String) :=
  if f.is_link || f.is_dir then Except.ok none
  else if f.compression = "" then Except.ok f.md5
  else if f.compression = "bz2" then Except.ok (some f.uncompContentDigest)
  else if f.compression = "gz" then Except.ok (some f.uncompContentDigest)
  else Except.ok none

/-- The value the caller observes from `uncompressed_md5` (the property
never raises; see `ArchiveFile.uncompressed_md5`). -/
def ArchiveFile.uncompressed_md5_value (f : ArchiveFile) : Option String :=
  match f.uncompressed_md5 with
  | Except.ok v => v
  | Except.error _ => none

/-- The constructor `ArchiveFile.__init__` sets `self.ext, self.compression
= get_file_extensions(self.path)`. -/
def ArchiveFile.fromPath (path : String) (ftype : String) (size : Int)
    (timestamp : Nat) (mode : String) (uid gid : Int) (readable : Bool)
    (linkTarget : String) (contentDigest uncompContentDigest : String) :
    ArchiveFile :=
  { path := path
    ftype := ftype
    size := size
    timestamp := timestamp
    mode := mode
    uid := uid
    gid := gid
    readable := readable
    linkTarget := linkTarget
    ext := (get_file_extensions path).1
    compression := (get_file_extensions path).2
    contentDigest := contentDigest
    uncompContentDigest := uncompContentDigest }

/-- `ArchiveFile.target`: `None` unless the entry is a symlink. -/
def ArchiveFile.target (f : ArchiveFile) : Option String :=
  if f.is_link then some f.linkTarget else none

/-! ## `CacheFile` (arqvist/cache.py)

A record with the thirteen `FILE_ATTRIBUTES` fields.  `__init__` starts with
every attribute `None` and then sets `relpath`, `basename`, `ext` and
`compression` from the path, so the fields are all `Option`-typed. -/

structure CacheFile where
  basename : Option String
  ftype : Option String
  size : Option Int
  timestamp : Option Nat
  mode : Option String
  uid : Option Int
  gid : Option Int
  ext : Option String
  compression : Option String
  md5 : Option String
  uncompressed_md5 : Option String
  target : Option String
  relpath : Option String
deriving DecidableEq, Repr

/-- `CacheFile.is_stale(size, timestamp)`:

```
if self.type == 'd':
    return (timestamp != self.timestamp)
else:
    return (size != self.size or timestamp != self.timestamp)
```

The supplied `size`/`timestamp` are concrete values, the cached fields may
be `None` (Python `x != None` is `True` for an int or datetime `x`). -/
def CacheFile.is_stale (cf : CacheFile) (size : Int) (timestamp : Nat) : Bool :=
  if cf.ftype = some "d" then some timestamp != cf.timestamp
  else some size != cf.size || some timestamp != cf.timestamp

end Arqvist

namespace Arqvist

/-! ## Claim C8: extension/compression classifier -/

/-- C8: the extension/compression classifier returns exactly the table
`"test" -> ("","")`, `"test.bz2" -> ("","bz2")`, `"test.fastq" -> ("fastq","")`,
`"test.fastq.gz" -> ("fastq","gz")`, `"test.file.fastq.gz" -> ("fastq","gz")`,
and in general, for every filename: a trailing `gz`/`bz2` dot-component of the
basename becomes the compression, the remaining last dot-component (when some
component precedes it) becomes the extension, and the absence of an
extension or compression yields empty strings (never a failure). -/
theorem c8_get_file_extensions_table_and_rule :
    (get_file_extensions "test" = ("", "") ∧
     get_file_extensions "test.bz2" = ("", "bz2") ∧
     get_file_extensions "test.fastq" = ("fastq", "") ∧
     get_file_extensions "test.fastq.gz" = ("fastq", "gz") ∧
     get_file_extensions "test.file.fastq.gz" = ("fastq", "gz")) ∧
    ∀ filen : String,
      get_file_extensions filen =
        (let parts := pySplit '.' (osBasename filen)
         let isComp := parts.getLastD "" = "gz" ∨ parts.getLastD "" = "bz2"
         let rest := if isComp then parts.dropLast else parts
         ((if rest.length > 1 then rest.getLastD "" else ""),
          (if isComp then parts.getLastD "" else ""))) := by
  refine ⟨⟨by decide, by decide, by decide, by decide, by decide⟩, ?_⟩
  intro filen
  simp only [get_file_extensions]
  split <;> simp_all

/-! ## Claim C2: unrecognized compression scheme in `uncompressed_md5` -/

/-- Sample `ArchiveFile` state with a caller-chosen type and compression
attribute (`compression` is an ordinary mutable instance attribute in the
source). -/
def sampleFile (ftype compression : String) : ArchiveFile :=
  { path := "data/sample.xz"
    ftype := ftype
    size := 100
    timestamp := 5
    mode := "0644"
    uid := 1000
    gid := 1000
    readable := true
    linkTarget := ""
    ext := "xz"
    compression := compression
    contentDigest := "d41d8cd98f00b204e9800998ecf8427e"
    uncompContentDigest := "c4ca4238a0b923820dcc509a6f75849b" }

/-- C2 counterexample: for a regular file whose `compression` attribute is the
unrecognized scheme `"xz"`, `uncompressed_md5` does NOT raise — it returns
(`Except.ok`) the value `None`.  This falsifies the claim that requesting the
decompressed checksum of such a file is a hard error that propagates to the
caller: the request completes normally and the caller receives `None`. -/
theorem c2_counterexample :
    (sampleFile "f" "xz").uncompressed_md5 = Except.ok none ∧
    (sampleFile "f" "xz").uncompressed_md5_value = none := by
  constructor <;> rfl

/-- C2 (amended): for every regular-file state whose compression attribute is
a non-empty scheme other than `gz`/`bz2`, `uncompressed_md5` completes
normally (after only logging a warning) and the caller receives `None` —
never a digest value, but also never a propagating error. -/
theorem c2_unrecognized_compression_yields_none (f : ArchiveFile)
    (hl : f.is_link = false) (hd : f.is_dir = false)
    (h0 : f.compression ≠ "") (hg : f.compression ≠ "gz")
    (hb : f.compression ≠ "bz2") :
    f.uncompressed_md5 = Except.ok none ∧ f.uncompressed_md5_value = none := by
  have h1 : f.uncompressed_md5 = Except.ok none := by
    simp [ArchiveFile.uncompressed_md5, hl, hd, h0, hg, hb]
  exact ⟨h1, by simp [ArchiveFile.uncompressed_md5_value, h1]⟩

/-- C2 witness: the amended theorem applied at a concrete input. -/
theorem c2_witness :
    (sampleFile "f" "rar").uncompressed_md5 = Except.ok none ∧
    (sampleFile "f" "rar").uncompressed_md5_value = none :=
  c2_unrecognized_compression_yields_none (sampleFile "f" "rar")
    (by decide) (by decide) (by decide) (by decide) (by decide)

/-! ## Claim C7: `CacheFile.is_stale` -/

/-- C7: for every cache entry and supplied `(size, timestamp)` pair,
`is_stale` of a directory-typed entry is true iff the timestamp differs from
the cached timestamp (size never compared), and for every other type it is
true iff the size or the timestamp differs from the cached values. -/
theorem c7_cachefile_is_stale (cf : CacheFile) (size : Int) (timestamp : Nat) :
    (cf.ftype = some "d" →
      (cf.is_stale size timestamp = true ↔ some timestamp ≠ cf.timestamp)) ∧
    (cf.ftype ≠ some "d" →
      (cf.is_stale size timestamp = true ↔
        (some size ≠ cf.size ∨ some timestamp ≠ cf.timestamp))) := by
  constructor <;> intro h <;> simp [CacheFile.is_stale, h]

/-- Directory-typed cache entry used by the C7 witness. -/
def dirCf0 : CacheFile :=
  { basename := some "sub"
    ftype := some "d"
    size := some 4096
    timestamp := some 5
    mode := some "0755"
    uid := some 1000
    gid := some 1000
    ext := some ""
    compression := some ""
    md5 := none
    uncompressed_md5 := none
    target := none
    relpath := some "sub" }

/-- Regular-file cache entry used by the C7 witness. -/
def fileCf0 : CacheFile :=
  { basename := some "a.txt"
    ftype := some "f"
    size := some 7
    timestamp := some 5
    mode := some "0644"
    uid := some 1000
    gid := some 1000
    ext := some "txt"
    compression := some ""
    md5 := none
    uncompressed_md5 := none
    target := none
    relpath := some "a.txt" }

/-- C7 witness: the theorem applied at concrete entries, discharging each
hypothesis — a directory entry is stale under a changed timestamp (with a
wildly different size argument), a file entry is stale under a changed size. -/
theorem c7_witness :
    dirCf0.is_stale 999 6 = true ∧ fileCf0.is_stale 8 5 = true :=
  ⟨((c7_cachefile_is_stale dirCf0 999 6).1 rfl).mpr (by decide),
   ((c7_cachefile_is_stale fileCf0 8 5).2 (by decide)).mpr (Or.inl (by decide))⟩

end Arqvist

namespace Arqvist

/-! ## Filesystem model

A finite tree of named entries.  Directories are inner nodes; regular files
and symlinks are leaves (`isLink` distinguishes them).  The cache root is a
`List FSNode` — the children of the source directory — and relative paths
(`RelPath`) are component lists rooted there. -/

abbrev RelPath := List String

/-- Stat data carried by one filesystem entry. -/
structure Meta where
  size : Int
  timestamp : Nat
  mode : String
  uid : Int
  gid : Int
  readable : Bool
  /-- raw symlink target (meaningful only for symlink leaves). -/
  target : String
  contentDigest : String
  uncompContentDigest : String
deriving DecidableEq, Repr

inductive FSNode where
  | dir (name : String) (meta : Meta) (children : List FSNode)
  | leaf (name : String) (isLink : Bool) (meta : Meta)
deriving Repr

def FSNode.name : FSNode → String
  | .dir n _ _ => n
  | .leaf n _ _ => n

def FSNode.meta : FSNode → Meta
  | .dir _ m _ => m
  | .leaf _ _ m => m

def FSNode.isDirNode : FSNode → Bool
  | .dir _ _ _ => true
  | .leaf _ _ _ => false

/-- `ArchiveFile.type`: symlink test first, then directory, then file. -/
def FSNode.ftype : FSNode → String
  | .dir _ _ _ => "d"
  | .leaf _ link _ => if link then "s" else "f"

/-- Names of the sub-directories of a directory (the `dirnames` entry of an
`os.walk` triple). -/
def dirNames (fs : List FSNode) : List String :=
  fs.filterMap fun n =>
    match n with
    | .dir nm _ _ => some nm
    | .leaf _ _ _ => none

/-- Names of the non-directory children (the `filenames` entry of an
`os.walk` triple). -/
def leafNames (fs : List FSNode) : List String :=
  fs.filterMap fun n =>
    match n with
    | .dir _ _ _ => none
    | .leaf nm _ _ => some nm

/-- Resolve a relative path to the entry it denotes, mirroring what a stat
of `os.path.join(dirn, *components)` sees. -/
def findNode (fs : List FSNode) : RelPath → Option FSNode
  | [] => none
  | [c] => fs.find? fun n => n.name == c
  | c :: cs =>
    match fs.find? (fun n => n.name == c) with
    | some (.dir _ _ children) => findNode children cs
    | _ => none

/-- `os.path.lexists(os.path.join(dirn, f))`. -/
def lexists (fs : List FSNode) (p : RelPath) : Bool :=
  (findNode fs p).isSome

/-- `ArchiveFile(...).is_readable`, i.e. `os.access(path, os.R_OK)`. -/
def isReadable (fs : List FSNode) (p : RelPath) : Bool :=
  match findNode fs p with
  | some n => n.meta.readable
  | none => false

/-- Children of the directory denoted by a path (`some fs` for the root). -/
def childrenAt (fs : List FSNode) : RelPath → Option (List FSNode)
  | [] => some fs
  | p =>
    match findNode fs p with
    | some (.dir _ _ children) => some children
    | _ => none

/-! ### `os.walk` -/

abbrev WalkTriple := RelPath × List String × List String

mutual

/-- Walk triples contributed by the subtree of one node: directories yield
their own `(dirpath, dirnames, filenames)` triple followed by their
descendants' triples, leaves yield nothing. -/
def nodeTriples (base : RelPath) : FSNode → List WalkTriple
  | .leaf _ _ _ => []
  | .dir name _ children =>
    (base ++ [name], dirNames children, leafNames children) ::
      forestTriples (base ++ [name]) children

/-- Walk triples of a list of sibling subtrees, in sibling order. -/
def forestTriples (base : RelPath) : List FSNode → List WalkTriple
  | [] => []
  | n :: rest => nodeTriples base n ++ forestTriples base rest

end

/-- `os.walk(dirn)` with default arguments: every directory of the tree,
top-down, starting with the root itself (path `[]`); symlinks are not
followed. -/
def osWalk (fs : List FSNode) : List WalkTriple :=
  ([], dirNames fs, leafNames fs) :: forestTriples [] fs

/-- `os.path.basename` of a walked directory path.  The root (`[]`) is the
absolute path of the user's source directory, whose basename is modelled as
`""`. -/
def lastComponent (p : RelPath) : String := p.getLastD ""

/-- The reserved cache subdirectory name (`DirCache._cache_dirname`). -/
def cacheDirname : String := ".arqvist"

/-- `DirCache._walk` (with `dirn=None`): iterate `os.walk`; skip the triple
of any directory whose basename is `.arqvist`; within a triple, yield each
subdirectory name except `.arqvist`, then each file name. -/
def dirWalk (fs : List FSNode) : List RelPath :=
  (osWalk fs).flatMap fun t =>
    if lastComponent t.1 = cacheDirname then []
    else
      (t.2.1.filter fun f => f != cacheDirname).map (fun f => t.1 ++ [f]) ++
        t.2.2.map (fun f => t.1 ++ [f])

/-! ## `fnmatch` model

Model of the Python standard library `fnmatch.fnmatch` glob matcher
(`*`, `?`, `[...]` with `!` negation and ranges; on POSIX `normcase` is the
identity).  A fuel argument bounds the recursion; every call strictly
decreases `|pattern| + |string|`, so the initial fuel always suffices. -/

/-- Parse the body of a `[...]` character class (after `[` and an optional
`!`): a list of character ranges plus the remaining pattern, or `none` if
the class is never closed (then `[` matches literally). -/
def parseClassBody : List Char → Option (List (Char × Char) × List Char)
  | [] => none
  | ']' :: rest => some ([], rest)
  | a :: '-' :: b :: rest =>
    if b = ']' then
      match parseClassBody (b :: rest) with
      | some (rs, rest2) => some ((a, a) :: ('-', '-') :: rs, rest2)
      | none => none
    else
      match parseClassBody rest with
      | some (rs, rest2) => some ((a, b) :: rs, rest2)
      | none => none
  | a :: rest =>
    match parseClassBody rest with
    | some (rs, rest2) => some ((a, a) :: rs, rest2)
    | none => none

def inClassRanges (rs : List (Char × Char)) (c : Char) : Bool :=
  rs.any fun r => decide (r.1 ≤ c) && decide (c ≤ r.2)

def globMatchFuel : Nat → List Char → List Char → Bool
  | 0, _, _ => false
  | _ + 1, [], s => s.isEmpty
  | fuel + 1, '*' :: ps, s =>
    globMatchFuel fuel ps s ||
      (match s with
       | [] => false
       | _ :: s2 => globMatchFuel fuel ('*' :: ps) s2)
  | fuel + 1, '?' :: ps, s =>
    (match s with
     | [] => false
     | _ :: s2 => globMatchFuel fuel ps s2)
  | fuel + 1, '[' :: ps, s =>
    let negBody : Bool × List Char :=
      match ps with
      | '!' :: rest => (true, rest)
      | _ => (false, ps)
    (match parseClassBody negBody.2 with
     | some (rs, rest) =>
       (match s with
        | [] => false
        | c :: s2 => (negBody.1 != inClassRanges rs c) && globMatchFuel fuel rest s2)
     | none =>
       (match s with
        | [] => false
        | c :: s2 => (c == '[') && globMatchFuel fuel ps s2))
  | fuel + 1, p :: ps, s =>
    (match s with
     | [] => false
     | c :: s2 => (c == p) && globMatchFuel fuel ps s2)

/-- `fnmatch.fnmatch(name, pattern)`. -/
def fnmatch (name : String) (pattern : String) : Bool :=
  globMatchFuel (pattern.length + name.length + 1) pattern.data name.data

/-- String form of a relative path, as produced by `os.path.relpath`
against the cache root. -/
def relString (p : RelPath) : String := pyJoin '/' p

/-! ## `DirCache` (arqvist/cache.py) -/

/-- In-memory state of a `DirCache`: the `relpath -> CacheFile` map
(`self._files`, an association list keyed by path) and the ignore patterns
(`self._ignore`).  The source directory itself is the filesystem value the
operations are run against. -/
structure DirCache where
  files : List (RelPath × CacheFile)
  ignorePatterns : List String
deriving DecidableEq, Repr

def DirCache.lookupFile (c : DirCache) (p : RelPath) : Option CacheFile :=
  (c.files.find? fun e => e.1 == p).map (·.2)

def DirCache.keys (c : DirCache) : List RelPath := c.files.map (·.1)

/-- Lexicographic component order on relative paths (stands in for the
Python string order of `sorted`; the ordering only affects the order of
result lists, never membership). -/
def pathLe (a b : RelPath) : Bool :=
  match a, b with
  | [], _ => true
  | _ :: _, [] => false
  | x :: xs, y :: ys => if x = y then pathLe xs ys else decide (x < y)

/-- Insertion sort used to model `sorted(self._files.keys())`. -/
def insertSorted (p : RelPath) : List RelPath → List RelPath
  | [] => [p]
  | q :: qs => if pathLe p q then p :: q :: qs else q :: insertSorted p qs

def sortPaths (ps : List RelPath) : List RelPath := ps.foldr insertSorted []

/-- `DirCache.files`: the sorted list of tracked relative paths. -/
def DirCache.sortedKeys (c : DirCache) : List RelPath := sortPaths c.keys

/-- `DirCache.ignore(f)`: true iff the path (relative to the cache root)
matches at least one ignore pattern. -/
def DirCache.ignore (c : DirCache) (f : RelPath) : Bool :=
  c.ignorePatterns.any fun pattern => fnmatch (relString f) pattern

/-- `DirCache.pathspec(f, pathspec)`: match against each pattern with a
trailing separator stripped, against `pattern + "/*"`, and (via the final
`reduce`) against each original pattern. -/
def pathspecMatches (f : RelPath) (pathspec : List String) : Bool :=
  (pathspec.any fun pattern =>
    let pattern2 := if pattern.endsWith "/" then pattern.dropRight 1 else pattern
    fnmatch (relString f) pattern2 || fnmatch (relString f) (pattern2 ++ "/*")) ||
  (pathspec.any fun pattern => fnmatch (relString f) pattern)

/-- Guard `pathspec and not self.pathspec(f, pathspec)` (a `None` or empty
pathspec is falsy and disables the filter). -/
def pathspecSkip (pathspec : Option (List String)) (f : RelPath) : Bool :=
  match pathspec with
  | none => false
  | some ps => !ps.isEmpty && !(pathspecMatches f ps)

/-! ### Attribute access for `compare` and `_add_file` -/

inductive AttrName where
  | basename
  | type
  | size
  | timestamp
  | mode
  | uid
  | gid
  | ext
  | compression
  | md5
  | uncompressed_md5
  | target
  | relpath
deriving DecidableEq, Repr

/-- `FILE_ATTRIBUTES`, in manifest column order. -/
def attrNames : List AttrName :=
  [.basename, .type, .size, .timestamp, .mode, .uid, .gid, .ext,
   .compression, .md5, .uncompressed_md5, .target, .relpath]

/-- Python value of an attribute: a (possibly `None`) string, integer or
datetime, or a bound method (`getattr(f, 'relpath')`), which compares
unequal to every data value. -/
inductive AttrVal where
  | str : Option String → AttrVal
  | int : Option Int → AttrVal
  | time : Option Nat → AttrVal
  | method : AttrVal
deriving DecidableEq, Repr

def CacheFile.attrVal (cf : CacheFile) : AttrName → AttrVal
  | .basename => .str cf.basename
  | .type => .str cf.ftype
  | .size => .int cf.size
  | .timestamp => .time cf.timestamp
  | .mode => .str cf.mode
  | .uid => .int cf.uid
  | .gid => .int cf.gid
  | .ext => .str cf.ext
  | .compression => .str cf.compression
  | .md5 => .str cf.md5
  | .uncompressed_md5 => .str cf.uncompressed_md5
  | .target => .str cf.target
  | .relpath => .str cf.relpath

/-- The fresh `ArchiveFile` built from a live filesystem entry. -/
def FSNode.toArchiveFile (n : FSNode) (p : RelPath) : ArchiveFile :=
  ArchiveFile.fromPath (relString p) n.ftype n.meta.size n.meta.timestamp
    n.meta.mode n.meta.uid n.meta.gid n.meta.readable n.meta.target
    n.meta.contentDigest n.meta.uncompContentDigest

/-- `getattr(ArchiveFile(path), attr)` for the live entry `n` at path `p`. -/
def archiveAttrVal (p : RelPath) (n : FSNode) : AttrName → AttrVal
  | .basename => .str (some (osBasename (relString p)))
  | .type => .str (some n.ftype)
  | .size => .int (some n.meta.size)
  | .timestamp => .time (some n.meta.timestamp)
  | .mode => .str (some n.meta.mode)
  | .uid => .int (some n.meta.uid)
  | .gid => .int (some n.meta.gid)
  | .ext => .str (some (get_file_extensions (relString p)).1)
  | .compression => .str (some (get_file_extensions (relString p)).2)
  | .md5 => .str (n.toArchiveFile p).md5
  | .uncompressed_md5 => .str (n.toArchiveFile p).uncompressed_md5_value
  | .target => .str (n.toArchiveFile p).target
  | .relpath => .method

/-- `CacheFile.compare(path, attributes)`: the attributes whose cached value
differs from the live value at `path` (node `n`). -/
def CacheFile.compare (cf : CacheFile) (p : RelPath) (n : FSNode)
    (attributes : List AttrName) : List AttrName :=
  attributes.filter fun a => cf.attrVal a != archiveAttrVal p n a

/-- Default `attributes` argument of `DirCache.status`. -/
def defaultStatusAttrs : List AttrName := [.type, .size]

/-! ### `DirCache.status` -/

/-- One iteration of the first `status` pass (over walked paths); the
accumulator is `(modified, untracked, unreadable)`.  For a walked path that
is unreadable the path is recorded in `unreadable` and then still classified
as modified/untracked. -/
def passOneStep (c : DirCache) (fs : List FSNode)
    (pathspec : Option (List String)) (attributes : List AttrName)
    (acc : List RelPath × List RelPath × List RelPath) (f : RelPath) :
    List RelPath × List RelPath × List RelPath :=
  let (modified, untracked, unreadable) := acc
  if c.ignore f then acc
  else if pathspecSkip pathspec f then acc
  else
    let unreadable2 := if isReadable fs f then unreadable else unreadable ++ [f]
    match c.lookupFile f, findNode fs f with
    | some cf, some n =>
      (if cf.compare f n attributes ≠ [] then modified ++ [f] else modified,
       untracked, unreadable2)
    | some _, none =>
      -- not reachable: a walked path exists (see `mem_dirWalk_lexists`)
      (modified, untracked, unreadable2)
    | none, _ => (modified, untracked ++ [f], unreadable2)

/-- One iteration of the second `status` pass (over tracked paths); the
accumulator is `(deleted, modified, unreadable)`. -/
def passTwoStep (c : DirCache) (fs : List FSNode)
    (pathspec : Option (List String)) (attributes : List AttrName)
    (acc : List RelPath × List RelPath × List RelPath) (f : RelPath) :
    List RelPath × List RelPath × List RelPath :=
  let (deleted, modified, unreadable) := acc
  if pathspecSkip pathspec f then acc
  else if !(lexists fs f) then (deleted ++ [f], modified, unreadable)
  else
    match c.lookupFile f, findNode fs f with
    | some cf, some n =>
      let modified2 :=
        if f ∉ modified ∧ cf.compare f n attributes ≠ [] then modified ++ [f]
        else modified
      let unreadable2 :=
        if ¬ isReadable fs f ∧ f ∉ unreadable then unreadable ++ [f]
        else unreadable
      (deleted, modified2, unreadable2)
    | _, _ =>
      -- not reachable: every tracked path has an entry, and `lexists`
      -- guarantees a node
      acc

/-- `DirCache.status(dirn=None, pathspec, attributes)`: returns the
`(deleted, modified, untracked, unreadable)` lists. -/
def DirCache.status (c : DirCache) (fs : List FSNode)
    (pathspec : Option (List String))
    (attributes : List AttrName := defaultStatusAttrs) :
    List RelPath × List RelPath × List RelPath × List RelPath :=
  let p1 := (dirWalk fs).foldl (passOneStep c fs pathspec attributes) ([], [], [])
  let p2 := c.sortedKeys.foldl (passTwoStep c fs pathspec attributes)
    ([], p1.1, p1.2.2)
  (p2.1, p2.2.1, p1.2.1, p2.2.2)

/-- `DirCache.is_stale` (a property in the source): `status()` with default
arguments, true iff deleted, modified or untracked is non-empty. -/
def DirCache.is_stale (c : DirCache) (fs : List FSNode) : Bool :=
  let s := c.status fs none defaultStatusAttrs
  if s.1 ≠ [] ∨ s.2.1 ≠ [] ∨ s.2.2.1 ≠ [] then true else false

/-! ### `DirCache._add_file`, `build`, `update` -/

/-- The `CacheFile` record constructed inside `DirCache._add_file` from a
fresh `ArchiveFile` snapshot: stat attributes always, `target` only for
symlinks, checksum fields only when `include_checksums` (otherwise they stay
`None`). -/
def buildCacheRecord (relpath : RelPath) (n : FSNode)
    (include_checksums : Bool) : CacheFile :=
  let f := n.toArchiveFile relpath
  { basename := some (osBasename (relString relpath))
    ftype := some f.ftype
    size := some f.size
    timestamp := some f.timestamp
    mode := some f.mode
    uid := some f.uid
    gid := some f.gid
    ext := some f.ext
    compression := some f.compression
    md5 := if include_checksums then f.md5 else none
    uncompressed_md5 :=
      if include_checksums then f.uncompressed_md5_value else none
    target := if f.is_link then some f.linkTarget else none
    relpath := some (relString relpath) }

/-- The per-attribute comparison loop of `_add_file` for a tracked path:
true iff some attribute of the candidate record differs from the stored one,
where the two checksum attributes are skipped when `include_checksums` is
false. -/
def attrChanged (cachefile old : CacheFile) (include_checksums : Bool) : Bool :=
  attrNames.any fun attr =>
    if !include_checksums && (attr == .md5 || attr == .uncompressed_md5)
    then false
    else cachefile.attrVal attr != old.attrVal attr

/-- `DirCache._add_file`: build the candidate record; insert it for a new
path; for a tracked path, compare attribute by attribute (skipping the two
checksum attributes when `include_checksums` is false) and replace the whole
stored entry with the candidate as soon as any compared attribute differs. -/
def DirCache.addFile (c : DirCache) (relpath : RelPath) (n : FSNode)
    (include_checksums : Bool) : DirCache :=
  let cachefile := buildCacheRecord relpath n include_checksums
  match c.lookupFile relpath with
  | none => { c with files := c.files ++ [(relpath, cachefile)] }
  | some old =>
    if attrChanged cachefile old include_checksums then
      { c with
        files := c.files.map fun e =>
          if e.1 == relpath then (e.1, cachefile) else e }
    else c

/-- One iteration of the `build` loop. -/
def buildStep (fs : List FSNode) (pathspec : Option (List String))
    (include_checksums : Bool) (st : DirCache) (f : RelPath) : DirCache :=
  if st.ignore f then st
  else if pathspecSkip pathspec f then st
  else
    match findNode fs f with
    | some n => st.addFile f n include_checksums
    | none => st  -- not reachable: walked paths exist

/-- `DirCache.build(pathspec, include_checksums)`: walk the tree, skip
ignored and non-pathspec paths, `_add_file` the rest. -/
def DirCache.build (c : DirCache) (fs : List FSNode)
    (pathspec : Option (List String)) (include_checksums : Bool) : DirCache :=
  (dirWalk fs).foldl (buildStep fs pathspec include_checksums) c

/-- One iteration of the deletion/refresh loop of `update`: drop the entry
of an ignored or vanished path, `_add_file` (default arguments, i.e. without
checksums) any other. -/
def updateStep (fs : List FSNode) (st : DirCache) (f : RelPath) : DirCache :=
  if st.ignore f || !(lexists fs f) then
    { st with files := st.files.filter fun e => !(e.1 == f) }
  else
    match findNode fs f with
    | some n => st.addFile f n false
    | none => st  -- not reachable: `lexists` guarantees a node

/-- `DirCache.update(pathspec, include_checksums)`: `build` with the same
arguments, then iterate the (sorted) tracked paths; delete the entry of any
path that is ignored or no longer exists, and `_add_file` (without
checksums) each remaining one. -/
def DirCache.update (c : DirCache) (fs : List FSNode)
    (pathspec : Option (List String)) (include_checksums : Bool) : DirCache :=
  let c1 := c.build fs pathspec include_checksums
  c1.sortedKeys.foldl (updateStep fs) c1

end Arqvist

namespace Arqvist

/-! ## Filesystem well-formedness

Real directory trees have non-empty, separator-free, pairwise-distinct
sibling names; the positive theorems assume this. -/

def goodName (s : String) : Bool :=
  !s.isEmpty && s.data.all fun ch => ch != '/'

mutual

def nodeWf : FSNode → Bool
  | .leaf nm _ _ => goodName nm
  | .dir nm _ children => goodName nm && forestWf children

def forestWf : List FSNode → Bool
  | [] => true
  | n :: rest =>
    nodeWf n && (rest.all fun m => m.name != n.name) && forestWf rest

end

/-! ## Shared concrete sample data -/

def sampleMeta : Meta :=
  { size := 1
    timestamp := 1
    mode := "0644"
    uid := 0
    gid := 0
    readable := true
    target := ""
    contentDigest := "x"
    uncompContentDigest := "y" }

def unreadableMeta : Meta := { sampleMeta with readable := false }

/-! ## Claim C6: `DirCache.is_stale` -/

/-- C6: `is_stale` is true iff at least one of the deleted, modified or
untracked lists of `status()` with default attributes is non-empty; a
non-empty unreadable list alone never makes it true (the unreadable
component does not occur in the condition). -/
theorem c6_is_stale_iff (c : DirCache) (fs : List FSNode) :
    c.is_stale fs = true ↔
      ((c.status fs none defaultStatusAttrs).1 ≠ [] ∨
       (c.status fs none defaultStatusAttrs).2.1 ≠ [] ∨
       (c.status fs none defaultStatusAttrs).2.2.1 ≠ []) := by
  simp only [DirCache.is_stale]
  split <;> simp_all

/-! ## Claim C1 counterexample -/

/-- C1 counterexample: with an empty cache and a single unreadable file
`a` on disk, `status()` reports the path `a` both in the untracked list and
in the unreadable list — the first `status` pass records an unreadable
walked path in `unreadable` and then still classifies it as untracked.
This falsifies the claim that no path ever appears in both untracked and
unreadable. -/
theorem c1_counterexample :
    (DirCache.status ⟨[], []⟩ [FSNode.leaf "a" false unreadableMeta] none
        defaultStatusAttrs).2.2.1 = [["a"]] ∧
    (DirCache.status ⟨[], []⟩ [FSNode.leaf "a" false unreadableMeta] none
        defaultStatusAttrs).2.2.2 = [["a"]] := by
  constructor <;> rfl

/-! ## Claim C9 counterexample -/

def c9Fs : List FSNode :=
  [FSNode.dir ".arqvist" sampleMeta
    [FSNode.dir "sub" sampleMeta [FSNode.leaf "file" false sampleMeta]]]

/-- C9 counterexample: `os.walk` is not pruned, only the `.arqvist` triple
itself and its direct children are suppressed, so a file two levels below
the reserved `.arqvist` directory IS yielded by the walk, IS entered into
the cache by `build()`, and DOES appear in a `status()` list (untracked,
for an empty cache) — falsifying the claim that no path at any nesting
depth below `.arqvist` is ever yielded. -/
theorem c9_counterexample :
    [".arqvist", "sub", "file"] ∈ dirWalk c9Fs ∧
    [".arqvist", "sub", "file"] ∈ (DirCache.build ⟨[], []⟩ c9Fs none false).keys ∧
    [".arqvist", "sub", "file"] ∈
      (DirCache.status ⟨[], []⟩ c9Fs none defaultStatusAttrs).2.2.1 := by
  refine ⟨?_, ?_, ?_⟩ <;> decide

/-! ## Claim C4 counterexample -/

def c4OldEntry : CacheFile := buildCacheRecord ["a"] (FSNode.leaf "a" false sampleMeta) true

def c4Cache : DirCache := ⟨[(["a"], c4OldEntry)], []⟩

def c4Fs : List FSNode := [FSNode.leaf "a" false { sampleMeta with size := 2 }]

/-- C4 counterexample: a tracked file has both checksum fields populated;
its size then changes on disk, and `build()` with `include_checksums=False`
replaces the whole entry with the fresh record, so both checksum fields
become `None` — falsifying the claim that the checksum fields are left
exactly as they were whenever `include_checksums` is false. -/
theorem c4_counterexample :
    c4OldEntry.md5 = some "x" ∧ c4OldEntry.uncompressed_md5 = some "x" ∧
    ((c4Cache.build c4Fs none false).lookupFile ["a"]).map CacheFile.md5 =
      some none ∧
    ((c4Cache.build c4Fs none false).lookupFile ["a"]).map
        CacheFile.uncompressed_md5 = some none := by
  refine ⟨rfl, rfl, ?_, ?_⟩ <;> rfl

end Arqvist

namespace Arqvist

theorem findNode_singleton (fs : List FSNode) (c : String) :
    findNode fs [c] = fs.find? fun n => n.name == c := rfl

theorem findNode_cons_cons (fs : List FSNode) (c d : String) (cs : List String) :
    findNode fs (c :: d :: cs) =
      (match fs.find? (fun n => n.name == c) with
       | some (.dir _ _ children) => findNode children (d :: cs)
       | _ => none) := rfl

theorem childrenAt_nil (fs : List FSNode) : childrenAt fs [] = some fs := rfl

theorem childrenAt_cons (fs : List FSNode) (c : String) (cs : List String) :
    childrenAt fs (c :: cs) =
      (match findNode fs (c :: cs) with
       | some (.dir _ _ children) => some children
       | _ => none) := rfl

theorem childrenAt_of_findNode_dir {fs : List FSNode} {p : RelPath} (hp : p ≠ [])
    {nm : String} {m : Meta} {children : List FSNode}
    (h : findNode fs p = some (.dir nm m children)) :
    childrenAt fs p = some children := by
  cases p with
  | nil => exact absurd rfl hp
  | cons c cs => rw [childrenAt_cons, h]

/-- Resolving one more component under a resolved directory. -/
theorem findNode_append_singleton :
    ∀ (base : RelPath) (fs ns : List FSNode), childrenAt fs base = some ns →
      ∀ x, findNode fs (base ++ [x]) = ns.find? fun n => n.name == x := by
  intro base
  induction base with
  | nil =>
    intro fs ns h x
    rw [childrenAt_nil, Option.some_inj] at h
    subst h
    rfl
  | cons c rest ih =>
    intro fs ns h x
    rw [childrenAt_cons] at h
    cases hfn : findNode fs (c :: rest) with
    | none => rw [hfn] at h; simp at h
    | some node =>
      rw [hfn] at h
      cases node with
      | leaf _ _ _ => simp at h
      | dir nm m children =>
        simp only [Option.some_inj] at h
        subst h
        cases rest with
        | nil =>
          rw [findNode_singleton] at hfn
          rw [List.cons_append, List.nil_append, findNode_cons_cons, hfn]
          exact findNode_singleton children x
        | cons r rs =>
          rw [findNode_cons_cons] at hfn
          cases hfind : fs.find? (fun n => n.name == c) with
          | none => rw [hfind] at hfn; simp at hfn
          | some node2 =>
            rw [hfind] at hfn
            cases node2 with
            | leaf _ _ _ => simp at hfn
            | dir nm2 m2 ch2 =>
              simp only at hfn
              have hch : childrenAt ch2 (r :: rs) = some children :=
                childrenAt_of_findNode_dir (by simp) hfn
              have hih := ih ch2 children hch x
              simp only [List.cons_append] at hih ⊢
              rw [findNode_cons_cons, hfind]
              simpa using hih

theorem forestWf_cons {n : FSNode} {ns : List FSNode}
    (h : forestWf (n :: ns) = true) :
    nodeWf n = true ∧ (∀ m ∈ ns, m.name ≠ n.name) ∧ forestWf ns = true := by
  simp only [forestWf, Bool.and_eq_true, List.all_eq_true] at h
  refine ⟨h.1.1, fun m hm => ?_, h.2⟩
  have := h.1.2 m hm
  simpa using this

theorem nodeWf_dir {nm : String} {m : Meta} {children : List FSNode}
    (h : nodeWf (.dir nm m children) = true) :
    goodName nm = true ∧ forestWf children = true := by
  simpa [nodeWf, Bool.and_eq_true] using h

theorem forestWf_find? {ns : List FSNode} (hwf : forestWf ns = true)
    {n : FSNode} (hmem : n ∈ ns) :
    (ns.find? fun m => m.name == n.name) = some n := by
  induction ns with
  | nil => cases hmem
  | cons h0 rest ih =>
    obtain ⟨hn0, hdist, hrest⟩ := forestWf_cons hwf
    rcases List.mem_cons.mp hmem with rfl | hmem2
    · simp [List.find?]
    · have hne : (h0.name == n.name) = false := by
        have := hdist n hmem2
        simp [this.symm]
      rw [List.find?_cons_of_neg _ (by simp [hne]), ih hrest hmem2]

theorem nodeWf_of_forestWf {ns : List FSNode} (hwf : forestWf ns = true) :
    ∀ m ∈ ns, nodeWf m = true := by
  induction ns with
  | nil => intro m hm; cases hm
  | cons h0 rest ih =>
    obtain ⟨hn0, _, hrest⟩ := forestWf_cons hwf
    intro m hm
    rcases List.mem_cons.mp hm with rfl | hm2
    · exact hn0
    · exact ih hrest m hm2

theorem forestWf_resolve {fs : List FSNode} {base : RelPath} {ns : List FSNode}
    (hwf : forestWf ns = true) (hch : childrenAt fs base = some ns) :
    ∀ m ∈ ns, findNode fs (base ++ [m.name]) = some m := by
  intro m hm
  rw [findNode_append_singleton base fs ns hch]
  exact forestWf_find? hwf hm

/-- A walk triple is `resolved` when its path denotes a directory of the
tree whose children give exactly the reported names. -/
def tripleResolved (fs : List FSNode) (t : WalkTriple) : Prop :=
  ∃ cs, childrenAt fs t.1 = some cs ∧ forestWf cs = true ∧
    t.2.1 = dirNames cs ∧ t.2.2 = leafNames cs

mutual

theorem nodeTriples_resolved (fs : List FSNode) (base : RelPath) (n : FSNode)
    (hwf : nodeWf n = true) (hfind : findNode fs (base ++ [n.name]) = some n) :
    ∀ t ∈ nodeTriples base n, tripleResolved fs t := by
  intro t ht
  cases n with
  | leaf _ _ _ => simp [nodeTriples] at ht
  | dir nm m children =>
    obtain ⟨hg, hchildren⟩ := nodeWf_dir hwf
    have hname : FSNode.name (.dir nm m children) = nm := rfl
    rw [hname] at hfind
    have hch : childrenAt fs (base ++ [nm]) = some children :=
      childrenAt_of_findNode_dir (by simp) hfind
    simp only [nodeTriples, List.mem_cons] at ht
    rcases ht with rfl | ht2
    · exact ⟨children, hch, hchildren, rfl, rfl⟩
    · exact forestTriples_resolved fs (base ++ [nm]) children
        (nodeWf_of_forestWf hchildren)
        (forestWf_resolve hchildren hch) t ht2

theorem forestTriples_resolved (fs : List FSNode) (base : RelPath)
    (ns : List FSNode)
    (hnode : ∀ m ∈ ns, nodeWf m = true)
    (hres : ∀ m ∈ ns, findNode fs (base ++ [m.name]) = some m) :
    ∀ t ∈ forestTriples base ns, tripleResolved fs t := by
  intro t ht
  cases ns with
  | nil => simp [forestTriples] at ht
  | cons n rest =>
    simp only [forestTriples, List.mem_append] at ht
    rcases ht with ht1 | ht2
    · exact nodeTriples_resolved fs base n (hnode n (by simp))
        (hres n (by simp)) t ht1
    · exact forestTriples_resolved fs base rest
        (fun m hm => hnode m (by simp [hm]))
        (fun m hm => hres m (by simp [hm])) t ht2

end

theorem osWalk_resolved {fs : List FSNode} (hwf : forestWf fs = true) :
    ∀ t ∈ osWalk fs, tripleResolved fs t := by
  intro t ht
  rcases List.mem_cons.mp ht with rfl | h2
  · exact ⟨fs, rfl, hwf, rfl, rfl⟩
  · refine forestTriples_resolved fs [] fs (nodeWf_of_forestWf hwf) ?_ t h2
    intro m hm
    have := forestWf_resolve hwf (childrenAt_nil fs) m hm
    simpa using this

end Arqvist

namespace Arqvist

/-! ### Membership in the `DirCache._walk` output -/

theorem mem_dirWalk_iff {fs : List FSNode} {p : RelPath} :
    p ∈ dirWalk fs ↔
      ∃ t ∈ osWalk fs, lastComponent t.1 ≠ cacheDirname ∧
        ((∃ d, d ∈ t.2.1 ∧ d ≠ cacheDirname ∧ p = t.1 ++ [d]) ∨
         (∃ f, f ∈ t.2.2 ∧ p = t.1 ++ [f])) := by
  simp only [dirWalk, List.mem_flatMap]
  constructor
  · rintro ⟨t, ht, hp⟩
    refine ⟨t, ht, ?_⟩
    by_cases hlast : lastComponent t.1 = cacheDirname
    · simp [hlast] at hp
    · simp only [if_neg hlast, List.mem_append, List.mem_map,
        List.mem_filter] at hp
      refine ⟨hlast, ?_⟩
      rcases hp with ⟨d, ⟨hd, hdne⟩, rfl⟩ | ⟨f, hf, rfl⟩
      · exact Or.inl ⟨d, hd, by simpa using hdne, rfl⟩
      · exact Or.inr ⟨f, hf, rfl⟩
  · rintro ⟨t, ht, hlast, hcases⟩
    refine ⟨t, ht, ?_⟩
    simp only [if_neg hlast, List.mem_append, List.mem_map, List.mem_filter]
    rcases hcases with ⟨d, hd, hdne, rfl⟩ | ⟨f, hf, rfl⟩
    · exact Or.inl ⟨d, ⟨hd, by simpa using hdne⟩, rfl⟩
    · exact Or.inr ⟨f, hf, rfl⟩

theorem mem_dirNames_iff {cs : List FSNode} {d : String} :
    d ∈ dirNames cs ↔ ∃ m children, FSNode.dir d m children ∈ cs := by
  simp only [dirNames, List.mem_filterMap]
  constructor
  · rintro ⟨n, hn, hd⟩
    cases n with
    | dir nm m children =>
      simp only [Option.some_inj] at hd
      subst hd
      exact ⟨m, children, hn⟩
    | leaf _ _ _ => simp at hd
  · rintro ⟨m, children, hmem⟩
    exact ⟨FSNode.dir d m children, hmem, rfl⟩

theorem mem_leafNames_iff {cs : List FSNode} {f : String} :
    f ∈ leafNames cs ↔ ∃ link m, FSNode.leaf f link m ∈ cs := by
  simp only [leafNames, List.mem_filterMap]
  constructor
  · rintro ⟨n, hn, hf⟩
    cases n with
    | dir _ _ _ => simp at hf
    | leaf nm link m =>
      simp only [Option.some_inj] at hf
      subst hf
      exact ⟨link, m, hn⟩
  · rintro ⟨link, m, hmem⟩
    exact ⟨FSNode.leaf f link m, hmem, rfl⟩

/-- Every path yielded by `DirCache._walk` over a well-formed tree resolves
to a node of the tree: the node is the child (named by the path's last
component) of the walked directory that yielded it, and when that child was
yielded from the `dirnames` part its name is not `.arqvist`. -/
theorem mem_dirWalk_resolves {fs : List FSNode} (hwf : forestWf fs = true)
    {p : RelPath} (hp : p ∈ dirWalk fs) :
    ∃ t ∈ osWalk fs, ∃ n : FSNode,
      lastComponent t.1 ≠ cacheDirname ∧
      p = t.1 ++ [n.name] ∧ findNode fs p = some n ∧
      (n.isDirNode = true → n.name ≠ cacheDirname) := by
  obtain ⟨t, ht, hlast, hcases⟩ := mem_dirWalk_iff.mp hp
  obtain ⟨cs, hch, hcswf, hdirnames, hleafnames⟩ := osWalk_resolved hwf t ht
  rcases hcases with ⟨d, hd, hdne, rfl⟩ | ⟨f, hf, rfl⟩
  · rw [hdirnames] at hd
    obtain ⟨m, children, hmem⟩ := mem_dirNames_iff.mp hd
    refine ⟨t, ht, FSNode.dir d m children, hlast, rfl, ?_, fun _ => hdne⟩
    exact forestWf_resolve hcswf hch _ hmem
  · rw [hleafnames] at hf
    obtain ⟨link, m, hmem⟩ := mem_leafNames_iff.mp hf
    refine ⟨t, ht, FSNode.leaf f link m, hlast, rfl, ?_, by simp [FSNode.isDirNode]⟩
    exact forestWf_resolve hcswf hch _ hmem

/-- A walked path exists on disk (well-formed tree). -/
theorem mem_dirWalk_lexists {fs : List FSNode} (hwf : forestWf fs = true)
    {p : RelPath} (hp : p ∈ dirWalk fs) : lexists fs p = true := by
  obtain ⟨t, _, n, _, _, hfind, _⟩ := mem_dirWalk_resolves hwf hp
  simp [lexists, hfind]

end Arqvist

namespace Arqvist

/-- Whether the entry at `p` is a directory. -/
def isDirAt (fs : List FSNode) (p : RelPath) : Bool :=
  match findNode fs p with
  | some (.dir _ _ _) => true
  | _ => false

/-- C9 (amended): over a well-formed tree, the structural exclusion of the
reserved `.arqvist` cache directory covers the directory itself and its
direct children only — every walked path lying below a directory named
`.arqvist` is at depth at least 2 beneath it (and such deeper paths can
really be yielded, see the counterexample).  The exclusion is independent of
ignore and pathspec patterns, which `_walk` never consults. -/
theorem c9_arqvist_exclusion_shallow_only (fs : List FSNode)
    (hwf : forestWf fs = true) (p : RelPath) (hp : p ∈ dirWalk fs)
    (q r : RelPath) (hshape : p = q ++ cacheDirname :: r)
    (hdir : isDirAt fs (q ++ [cacheDirname]) = true) :
    2 ≤ r.length := by
  obtain ⟨t, ht, n, hlast, hpeq, hfind, hdirname⟩ := mem_dirWalk_resolves hwf hp
  match r, hshape with
  | [], hshape =>
    exfalso
    have hpq : t.1 ++ [n.name] = q ++ [cacheDirname] := by
      rw [← hpeq, hshape]
    obtain ⟨hq, hname⟩ := List.append_inj' hpq (by simp)
    simp only [List.cons.injEq] at hname
    have hp2 : p = q ++ [cacheDirname] := hshape
    rw [← hp2] at hdir
    rw [isDirAt, hfind] at hdir
    cases n with
    | dir nm m ch =>
      exact hdirname rfl (by simpa using hname.1)
    | leaf nm link m => simp at hdir
  | [x], hshape =>
    exfalso
    have hpq : t.1 ++ [n.name] = (q ++ [cacheDirname]) ++ [x] := by
      rw [← hpeq, hshape]; simp
    obtain ⟨hq, _⟩ := List.append_inj' hpq (by simp)
    apply hlast
    rw [hq, lastComponent]
    simp [List.getLastD_concat]
  | x :: y :: rest, hshape => simp

/-! ### Key/sort membership lemmas -/

theorem mem_insertSorted {p x : RelPath} :
    ∀ l, x ∈ insertSorted p l ↔ x = p ∨ x ∈ l := by
  intro l
  induction l with
  | nil => simp [insertSorted]
  | cons q qs ih =>
    by_cases h : pathLe p q
    · simp [insertSorted, h]
    · simp only [insertSorted, if_neg h, List.mem_cons, ih]
      tauto

theorem mem_sortPaths {x : RelPath} {l : List RelPath} :
    x ∈ sortPaths l ↔ x ∈ l := by
  induction l with
  | nil => simp [sortPaths]
  | cons p ps ih =>
    simp only [sortPaths, List.foldr_cons] at ih ⊢
    rw [mem_insertSorted]
    simp [ih]

theorem mem_sortedKeys {c : DirCache} {x : RelPath} :
    x ∈ c.sortedKeys ↔ x ∈ c.keys := by
  simp [DirCache.sortedKeys, mem_sortPaths]

theorem lookupFile_isSome_iff {c : DirCache} {x : RelPath} :
    (c.lookupFile x).isSome ↔ x ∈ c.keys := by
  simp only [DirCache.lookupFile, Option.isSome_map', List.find?_isSome,
    DirCache.keys, List.mem_map]
  constructor
  · rintro ⟨e, he, heq⟩
    exact ⟨e, he, by simpa using heq⟩
  · rintro ⟨e, he, heq⟩
    exact ⟨e, he, by simpa using heq⟩

theorem lookupFile_eq_none_iff {c : DirCache} {x : RelPath} :
    c.lookupFile x = none ↔ x ∉ c.keys := by
  rw [← lookupFile_isSome_iff, Option.isSome_iff_ne_none]
  tauto

end Arqvist

namespace Arqvist

/-! ### Membership characterization of `status` -/

/-- A path survives the ignore/pathspec filters of the first `status` pass. -/
def keptByFilters (c : DirCache) (ps : Option (List String)) (f : RelPath) : Prop :=
  c.ignore f = false ∧ pathspecSkip ps f = false

/-- Condition under which the first pass marks a walked path modified. -/
def p1ModCond (c : DirCache) (fs : List FSNode) (ps : Option (List String))
    (attrs : List AttrName) (f : RelPath) : Prop :=
  keptByFilters c ps f ∧
    ∃ cf n, c.lookupFile f = some cf ∧ findNode fs f = some n ∧
      cf.compare f n attrs ≠ []

/-- Condition under which the first pass marks a walked path untracked. -/
def p1UntCond (c : DirCache) (ps : Option (List String)) (f : RelPath) : Prop :=
  keptByFilters c ps f ∧ c.lookupFile f = none

/-- Condition under which the first pass marks a walked path unreadable. -/
def p1UnreadCond (c : DirCache) (fs : List FSNode) (ps : Option (List String))
    (f : RelPath) : Prop :=
  keptByFilters c ps f ∧ isReadable fs f = false

/-- Condition under which the second pass marks a tracked path deleted. -/
def p2DelCond (fs : List FSNode) (ps : Option (List String)) (f : RelPath) : Prop :=
  pathspecSkip ps f = false ∧ lexists fs f = false

/-- Condition under which the second pass marks a tracked path modified. -/
def p2ModCond (c : DirCache) (fs : List FSNode) (ps : Option (List String))
    (attrs : List AttrName) (f : RelPath) : Prop :=
  pathspecSkip ps f = false ∧
    ∃ cf n, c.lookupFile f = some cf ∧ findNode fs f = some n ∧
      cf.compare f n attrs ≠ []

/-- Condition under which the second pass marks a tracked path unreadable. -/
def p2UnreadCond (c : DirCache) (fs : List FSNode) (ps : Option (List String))
    (f : RelPath) : Prop :=
  pathspecSkip ps f = false ∧
    ∃ cf n, c.lookupFile f = some cf ∧ findNode fs f = some n ∧
      isReadable fs f = false

theorem passOneStep_mem_fst (c : DirCache) (fs : List FSNode)
    (ps : Option (List String)) (attrs : List AttrName)
    (acc : List RelPath × List RelPath × List RelPath) (f x : RelPath) :
    x ∈ (passOneStep c fs ps attrs acc f).1 ↔
      x ∈ acc.1 ∨ (x = f ∧ p1ModCond c fs ps attrs f) := by
  obtain ⟨m, u, r⟩ := acc
  by_cases hig : c.ignore f = true
  · simp [passOneStep, hig, p1ModCond, keptByFilters]
  · replace hig : c.ignore f = false := by simpa using hig
    by_cases hps : pathspecSkip ps f = true
    · simp [passOneStep, hig, hps, p1ModCond, keptByFilters]
    · replace hps : pathspecSkip ps f = false := by simpa using hps
      cases hlk : c.lookupFile f with
      | none => simp [passOneStep, hig, hps, hlk, p1ModCond, keptByFilters]
      | some cf =>
        cases hfn : findNode fs f with
        | none => simp [passOneStep, hig, hps, hlk, hfn, p1ModCond, keptByFilters]
        | some n =>
          by_cases hcmp : cf.compare f n attrs = []
          · simp [passOneStep, hig, hps, hlk, hfn, hcmp, p1ModCond, keptByFilters]
          · simp [passOneStep, hig, hps, hlk, hfn, hcmp, p1ModCond,
              keptByFilters]

end Arqvist

namespace Arqvist

theorem passOneStep_mem_snd (c : DirCache) (fs : List FSNode)
    (ps : Option (List String)) (attrs : List AttrName)
    (acc : List RelPath × List RelPath × List RelPath) (f x : RelPath) :
    x ∈ (passOneStep c fs ps attrs acc f).2.1 ↔
      x ∈ acc.2.1 ∨ (x = f ∧ p1UntCond c ps f) := by
  obtain ⟨m, u, r⟩ := acc
  by_cases hig : c.ignore f = true
  · simp [passOneStep, hig, p1UntCond, keptByFilters]
  · replace hig : c.ignore f = false := by simpa using hig
    by_cases hps : pathspecSkip ps f = true
    · simp [passOneStep, hig, hps, p1UntCond, keptByFilters]
    · replace hps : pathspecSkip ps f = false := by simpa using hps
      cases hlk : c.lookupFile f with
      | none =>
        cases hfn : findNode fs f with
        | none => simp [passOneStep, hig, hps, hlk, hfn, p1UntCond, keptByFilters]
        | some n => simp [passOneStep, hig, hps, hlk, hfn, p1UntCond, keptByFilters]
      | some cf =>
        cases hfn : findNode fs f with
        | none => simp [passOneStep, hig, hps, hlk, hfn, p1UntCond, keptByFilters]
        | some n =>
          by_cases hcmp : cf.compare f n attrs = [] <;>
            simp [passOneStep, hig, hps, hlk, hfn, hcmp, p1UntCond, keptByFilters]

theorem passOneStep_mem_unread (c : DirCache) (fs : List FSNode)
    (ps : Option (List String)) (attrs : List AttrName)
    (acc : List RelPath × List RelPath × List RelPath) (f x : RelPath) :
    x ∈ (passOneStep c fs ps attrs acc f).2.2 ↔
      x ∈ acc.2.2 ∨ (x = f ∧ p1UnreadCond c fs ps f) := by
  obtain ⟨m, u, r⟩ := acc
  by_cases hig : c.ignore f = true
  · simp [passOneStep, hig, p1UnreadCond, keptByFilters]
  · replace hig : c.ignore f = false := by simpa using hig
    by_cases hps : pathspecSkip ps f = true
    · simp [passOneStep, hig, hps, p1UnreadCond, keptByFilters]
    · replace hps : pathspecSkip ps f = false := by simpa using hps
      by_cases hrd : isReadable fs f = true
      · cases hlk : c.lookupFile f with
        | none =>
          cases hfn : findNode fs f with
          | none => simp [passOneStep, hig, hps, hlk, hfn, hrd, p1UnreadCond, keptByFilters]
          | some n => simp [passOneStep, hig, hps, hlk, hfn, hrd, p1UnreadCond, keptByFilters]
        | some cf =>
          cases hfn : findNode fs f with
          | none => simp [passOneStep, hig, hps, hlk, hfn, hrd, p1UnreadCond, keptByFilters]
          | some n =>
            by_cases hcmp : cf.compare f n attrs = [] <;>
              simp [passOneStep, hig, hps, hlk, hfn, hrd, hcmp, p1UnreadCond, keptByFilters]
      · replace hrd : isReadable fs f = false := by simpa using hrd
        cases hlk : c.lookupFile f with
        | none =>
          cases hfn : findNode fs f with
          | none => simp [passOneStep, hig, hps, hlk, hfn, hrd, p1UnreadCond, keptByFilters]
          | some n => simp [passOneStep, hig, hps, hlk, hfn, hrd, p1UnreadCond, keptByFilters]
        | some cf =>
          cases hfn : findNode fs f with
          | none => simp [passOneStep, hig, hps, hlk, hfn, hrd, p1UnreadCond, keptByFilters]
          | some n =>
            by_cases hcmp : cf.compare f n attrs = [] <;>
              simp [passOneStep, hig, hps, hlk, hfn, hrd, hcmp, p1UnreadCond, keptByFilters]

end Arqvist

namespace Arqvist

theorem findNode_eq_none_of_not_lexists {fs : List FSNode} {f : RelPath}
    (h : lexists fs f = false) : findNode fs f = none := by
  simpa [lexists, Option.isSome_iff_ne_none] using h

theorem passTwoStep_mem_fst (c : DirCache) (fs : List FSNode)
    (ps : Option (List String)) (attrs : List AttrName)
    (acc : List RelPath × List RelPath × List RelPath) (f x : RelPath) :
    x ∈ (passTwoStep c fs ps attrs acc f).1 ↔
      x ∈ acc.1 ∨ (x = f ∧ p2DelCond fs ps f) := by
  obtain ⟨d, m, r⟩ := acc
  by_cases hps : pathspecSkip ps f = true
  · simp [passTwoStep, hps, p2DelCond]
  · replace hps : pathspecSkip ps f = false := by simpa using hps
    by_cases hex : lexists fs f = true
    · cases hlk : c.lookupFile f with
      | none =>
        cases hfn : findNode fs f with
        | none => simp [lexists, hfn] at hex
        | some n => simp [passTwoStep, hps, hex, hlk, hfn, p2DelCond]
      | some cf =>
        cases hfn : findNode fs f with
        | none => simp [lexists, hfn] at hex
        | some n => simp [passTwoStep, hps, hex, hlk, hfn, p2DelCond]
    · replace hex : lexists fs f = false := by simpa using hex
      simp [passTwoStep, hps, hex, p2DelCond]

theorem passTwoStep_mem_snd (c : DirCache) (fs : List FSNode)
    (ps : Option (List String)) (attrs : List AttrName)
    (acc : List RelPath × List RelPath × List RelPath) (f x : RelPath) :
    x ∈ (passTwoStep c fs ps attrs acc f).2.1 ↔
      x ∈ acc.2.1 ∨ (x = f ∧ p2ModCond c fs ps attrs f) := by
  obtain ⟨d, m, r⟩ := acc
  by_cases hps : pathspecSkip ps f = true
  · simp [passTwoStep, hps, p2ModCond]
  · replace hps : pathspecSkip ps f = false := by simpa using hps
    by_cases hex : lexists fs f = true
    · cases hlk : c.lookupFile f with
      | none =>
        cases hfn : findNode fs f with
        | none => simp [lexists, hfn] at hex
        | some n => simp [passTwoStep, hps, hex, hlk, hfn, p2ModCond]
      | some cf =>
        cases hfn : findNode fs f with
        | none => simp [lexists, hfn] at hex
        | some n =>
          by_cases hcmp : cf.compare f n attrs = []
          · simp [passTwoStep, hps, hex, hlk, hfn, hcmp, p2ModCond]
          · by_cases hfm : f ∈ m
            · simp only [passTwoStep, hps, hex, hlk, hfn, p2ModCond,
                Bool.not_true, Bool.false_eq_true, if_false, hfm,
                not_true_eq_false, false_and, ne_eq, hcmp]
              constructor
              · intro hx
                exact Or.inl hx
              · rintro (hx | ⟨rfl, hrest⟩)
                · exact hx
                · exact hfm
            · simp [passTwoStep, hps, hex, hlk, hfn, hcmp, hfm, p2ModCond]
    · replace hex : lexists fs f = false := by simpa using hex
      have hfn := findNode_eq_none_of_not_lexists hex
      simp [passTwoStep, hps, hex, hfn, p2ModCond]

theorem passTwoStep_mem_unread (c : DirCache) (fs : List FSNode)
    (ps : Option (List String)) (attrs : List AttrName)
    (acc : List RelPath × List RelPath × List RelPath) (f x : RelPath) :
    x ∈ (passTwoStep c fs ps attrs acc f).2.2 ↔
      x ∈ acc.2.2 ∨ (x = f ∧ p2UnreadCond c fs ps f) := by
  obtain ⟨d, m, r⟩ := acc
  by_cases hps : pathspecSkip ps f = true
  · simp [passTwoStep, hps, p2UnreadCond]
  · replace hps : pathspecSkip ps f = false := by simpa using hps
    by_cases hex : lexists fs f = true
    · cases hlk : c.lookupFile f with
      | none =>
        cases hfn : findNode fs f with
        | none => simp [lexists, hfn] at hex
        | some n => simp [passTwoStep, hps, hex, hlk, hfn, p2UnreadCond]
      | some cf =>
        cases hfn : findNode fs f with
        | none => simp [lexists, hfn] at hex
        | some n =>
          by_cases hrd : isReadable fs f = true
          · simp [passTwoStep, hps, hex, hlk, hfn, hrd, p2UnreadCond]
          · replace hrd : isReadable fs f = false := by simpa using hrd
            by_cases hfr : f ∈ r
            · simp only [passTwoStep, hps, hex, hlk, hfn, hrd, p2UnreadCond,
                Bool.not_true, Bool.false_eq_true, if_false, hfr,
                not_true_eq_false, and_false, ne_eq]
              constructor
              · intro hx
                exact Or.inl hx
              · rintro (hx | ⟨rfl, hrest⟩)
                · exact hx
                · exact hfr
            · simp [passTwoStep, hps, hex, hlk, hfn, hrd, hfr, p2UnreadCond]
    · replace hex : lexists fs f = false := by simpa using hex
      have hfn := findNode_eq_none_of_not_lexists hex
      simp [passTwoStep, hps, hex, hfn, p2UnreadCond]

end Arqvist

namespace Arqvist

theorem foldl_passOne_mem_fst (c : DirCache) (fs : List FSNode)
    (ps : Option (List String)) (attrs : List AttrName) :
    ∀ (l : List RelPath) (acc : List RelPath × List RelPath × List RelPath)
      (x : RelPath),
      x ∈ (l.foldl (passOneStep c fs ps attrs) acc).1 ↔
        x ∈ acc.1 ∨ ∃ f ∈ l, x = f ∧ p1ModCond c fs ps attrs f := by
  intro l
  induction l with
  | nil => simp
  | cons f l ih =>
    intro acc x
    rw [List.foldl_cons, ih, passOneStep_mem_fst]
    simp only [List.exists_mem_cons_iff]
    tauto

theorem foldl_passOne_mem_snd (c : DirCache) (fs : List FSNode)
    (ps : Option (List String)) (attrs : List AttrName) :
    ∀ (l : List RelPath) (acc : List RelPath × List RelPath × List RelPath)
      (x : RelPath),
      x ∈ (l.foldl (passOneStep c fs ps attrs) acc).2.1 ↔
        x ∈ acc.2.1 ∨ ∃ f ∈ l, x = f ∧ p1UntCond c ps f := by
  intro l
  induction l with
  | nil => simp
  | cons f l ih =>
    intro acc x
    rw [List.foldl_cons, ih, passOneStep_mem_snd]
    simp only [List.exists_mem_cons_iff]
    tauto

theorem foldl_passOne_mem_unread (c : DirCache) (fs : List FSNode)
    (ps : Option (List String)) (attrs : List AttrName) :
    ∀ (l : List RelPath) (acc : List RelPath × List RelPath × List RelPath)
      (x : RelPath),
      x ∈ (l.foldl (passOneStep c fs ps attrs) acc).2.2 ↔
        x ∈ acc.2.2 ∨ ∃ f ∈ l, x = f ∧ p1UnreadCond c fs ps f := by
  intro l
  induction l with
  | nil => simp
  | cons f l ih =>
    intro acc x
    rw [List.foldl_cons, ih, passOneStep_mem_unread]
    simp only [List.exists_mem_cons_iff]
    tauto

theorem foldl_passTwo_mem_fst (c : DirCache) (fs : List FSNode)
    (ps : Option (List String)) (attrs : List AttrName) :
    ∀ (l : List RelPath) (acc : List RelPath × List RelPath × List RelPath)
      (x : RelPath),
      x ∈ (l.foldl (passTwoStep c fs ps attrs) acc).1 ↔
        x ∈ acc.1 ∨ ∃ f ∈ l, x = f ∧ p2DelCond fs ps f := by
  intro l
  induction l with
  | nil => simp
  | cons f l ih =>
    intro acc x
    rw [List.foldl_cons, ih, passTwoStep_mem_fst]
    simp only [List.exists_mem_cons_iff]
    tauto

theorem foldl_passTwo_mem_snd (c : DirCache) (fs : List FSNode)
    (ps : Option (List String)) (attrs : List AttrName) :
    ∀ (l : List RelPath) (acc : List RelPath × List RelPath × List RelPath)
      (x : RelPath),
      x ∈ (l.foldl (passTwoStep c fs ps attrs) acc).2.1 ↔
        x ∈ acc.2.1 ∨ ∃ f ∈ l, x = f ∧ p2ModCond c fs ps attrs f := by
  intro l
  induction l with
  | nil => simp
  | cons f l ih =>
    intro acc x
    rw [List.foldl_cons, ih, passTwoStep_mem_snd]
    simp only [List.exists_mem_cons_iff]
    tauto

theorem foldl_passTwo_mem_unread (c : DirCache) (fs : List FSNode)
    (ps : Option (List String)) (attrs : List AttrName) :
    ∀ (l : List RelPath) (acc : List RelPath × List RelPath × List RelPath)
      (x : RelPath),
      x ∈ (l.foldl (passTwoStep c fs ps attrs) acc).2.2 ↔
        x ∈ acc.2.2 ∨ ∃ f ∈ l, x = f ∧ p2UnreadCond c fs ps f := by
  intro l
  induction l with
  | nil => simp
  | cons f l ih =>
    intro acc x
    rw [List.foldl_cons, ih, passTwoStep_mem_unread]
    simp only [List.exists_mem_cons_iff]
    tauto

/-- Membership in the deleted component of `status`. -/
theorem status_deleted_mem (c : DirCache) (fs : List FSNode)
    (ps : Option (List String)) (attrs : List AttrName) (x : RelPath) :
    x ∈ (c.status fs ps attrs).1 ↔ x ∈ c.keys ∧ p2DelCond fs ps x := by
  simp only [DirCache.status]
  rw [foldl_passTwo_mem_fst]
  simp only [List.not_mem_nil, false_or]
  constructor
  · rintro ⟨f, hf, rfl, hc⟩
    exact ⟨mem_sortedKeys.mp hf, hc⟩
  · rintro ⟨hx, hc⟩
    exact ⟨x, mem_sortedKeys.mpr hx, rfl, hc⟩

/-- Membership in the modified component of `status`. -/
theorem status_modified_mem (c : DirCache) (fs : List FSNode)
    (ps : Option (List String)) (attrs : List AttrName) (x : RelPath) :
    x ∈ (c.status fs ps attrs).2.1 ↔
      (x ∈ dirWalk fs ∧ p1ModCond c fs ps attrs x) ∨
      (x ∈ c.keys ∧ p2ModCond c fs ps attrs x) := by
  simp only [DirCache.status]
  rw [foldl_passTwo_mem_snd, foldl_passOne_mem_fst]
  simp only [List.not_mem_nil, false_or]
  constructor
  · rintro (⟨f, hf, rfl, hc⟩ | ⟨f, hf, rfl, hc⟩)
    · exact Or.inl ⟨hf, hc⟩
    · exact Or.inr ⟨mem_sortedKeys.mp hf, hc⟩
  · rintro (⟨hx, hc⟩ | ⟨hx, hc⟩)
    · exact Or.inl ⟨x, hx, rfl, hc⟩
    · exact Or.inr ⟨x, mem_sortedKeys.mpr hx, rfl, hc⟩

/-- Membership in the untracked component of `status`. -/
theorem status_untracked_mem (c : DirCache) (fs : List FSNode)
    (ps : Option (List String)) (attrs : List AttrName) (x : RelPath) :
    x ∈ (c.status fs ps attrs).2.2.1 ↔
      x ∈ dirWalk fs ∧ p1UntCond c ps x := by
  simp only [DirCache.status]
  rw [foldl_passOne_mem_snd]
  simp only [List.not_mem_nil, false_or]
  constructor
  · rintro ⟨f, hf, rfl, hc⟩
    exact ⟨hf, hc⟩
  · rintro ⟨hx, hc⟩
    exact ⟨x, hx, rfl, hc⟩

/-- Membership in the unreadable component of `status`. -/
theorem status_unreadable_mem (c : DirCache) (fs : List FSNode)
    (ps : Option (List String)) (attrs : List AttrName) (x : RelPath) :
    x ∈ (c.status fs ps attrs).2.2.2 ↔
      (x ∈ dirWalk fs ∧ p1UnreadCond c fs ps x) ∨
      (x ∈ c.keys ∧ p2UnreadCond c fs ps x) := by
  simp only [DirCache.status]
  rw [foldl_passTwo_mem_unread, foldl_passOne_mem_unread]
  simp only [List.not_mem_nil, false_or]
  constructor
  · rintro (⟨f, hf, rfl, hc⟩ | ⟨f, hf, rfl, hc⟩)
    · exact Or.inl ⟨hf, hc⟩
    · exact Or.inr ⟨mem_sortedKeys.mp hf, hc⟩
  · rintro (⟨hx, hc⟩ | ⟨hx, hc⟩)
    · exact Or.inl ⟨x, hx, rfl, hc⟩
    · exact Or.inr ⟨x, mem_sortedKeys.mpr hx, rfl, hc⟩

end Arqvist

namespace Arqvist

/-- C1 (amended): for every cache state and well-formed filesystem state,
the four `status()` lists are pairwise disjoint with exactly two permitted
exceptions — a path may appear in both `modified` and `unreadable`, and a
path may appear in both `untracked` and `unreadable` (an unreadable
untracked file is recorded in both, see the counterexample).  In
particular `deleted` never shares a path with any other list and no path is
both `untracked` and `modified`. -/
theorem c1_status_disjoint (c : DirCache) (fs : List FSNode)
    (ps : Option (List String)) (attrs : List AttrName)
    (hwf : forestWf fs = true) :
    (∀ x ∈ (c.status fs ps attrs).1,
       x ∉ (c.status fs ps attrs).2.1 ∧
       x ∉ (c.status fs ps attrs).2.2.1 ∧
       x ∉ (c.status fs ps attrs).2.2.2) ∧
    (∀ x ∈ (c.status fs ps attrs).2.2.1, x ∉ (c.status fs ps attrs).2.1) := by
  constructor
  · intro x hx
    obtain ⟨hk, hps, hnex⟩ := (status_deleted_mem c fs ps attrs x).mp hx
    refine ⟨?_, ?_, ?_⟩
    · intro hm
      rcases (status_modified_mem c fs ps attrs x).mp hm with
        ⟨hw, _⟩ | ⟨_, _, cf, n, _, hfn, _⟩
      · rw [mem_dirWalk_lexists hwf hw] at hnex
        cases hnex
      · simp [lexists, hfn] at hnex
    · intro hu
      obtain ⟨hw, _⟩ := (status_untracked_mem c fs ps attrs x).mp hu
      rw [mem_dirWalk_lexists hwf hw] at hnex
      cases hnex
    · intro hr
      rcases (status_unreadable_mem c fs ps attrs x).mp hr with
        ⟨hw, _⟩ | ⟨_, _, cf, n, _, hfn, _⟩
      · rw [mem_dirWalk_lexists hwf hw] at hnex
        cases hnex
      · simp [lexists, hfn] at hnex
  · intro x hu hm
    obtain ⟨_, _, hnone⟩ := (status_untracked_mem c fs ps attrs x).mp hu
    rcases (status_modified_mem c fs ps attrs x).mp hm with
      ⟨_, _, cf, n, hcf, _⟩ | ⟨hk, _⟩
    · rw [hnone] at hcf
      cases hcf
    · rw [lookupFile_eq_none_iff] at hnone
      exact hnone hk

def c1wCache : DirCache :=
  ⟨[(["gone"], buildCacheRecord ["gone"] (FSNode.leaf "gone" false sampleMeta) false)], []⟩

def c1wFs : List FSNode := [FSNode.leaf "a" false sampleMeta]

/-- C1 witness: the amended disjointness theorem applied at a concrete
state with one deleted and one untracked path. -/
theorem c1_witness :
    ["gone"] ∉ (c1wCache.status c1wFs none defaultStatusAttrs).2.1 ∧
    ["a"] ∉ (c1wCache.status c1wFs none defaultStatusAttrs).2.1 :=
  ⟨((c1_status_disjoint c1wCache c1wFs none defaultStatusAttrs (by decide)).1
      ["gone"] (by decide)).1,
   (c1_status_disjoint c1wCache c1wFs none defaultStatusAttrs (by decide)).2
      ["a"] (by decide)⟩

end Arqvist

namespace Arqvist

/-- C9 witness: the amended depth bound applied to the concrete tree of the
counterexample — the walked path `.arqvist/sub/file` lies at depth exactly 2
below the `.arqvist` directory. -/
theorem c9_witness : 2 ≤ (["sub", "file"] : RelPath).length :=
  c9_arqvist_exclusion_shallow_only c9Fs (by decide)
    [".arqvist", "sub", "file"] (by decide) [] ["sub", "file"] rfl (by decide)

/-! ## Claim C4 (amended) -/

theorem find?_map_replace (l : List (RelPath × CacheFile)) (p : RelPath)
    (v : CacheFile) :
    ((l.map fun e => if e.1 == p then (e.1, v) else e).find? fun e => e.1 == p) =
      ((l.find? fun e => e.1 == p).map fun e => (e.1, v)) := by
  induction l with
  | nil => rfl
  | cons e l ih =>
    cases he : (e.1 == p) with
    | true =>
      have hhd : (if (e.1 == p) = true then (e.1, v) else e) = (e.1, v) := by
        simp [he]
      simp only [List.map_cons, hhd, List.find?_cons]
      rw [he]
      rfl
    | false =>
      have hhd : (if (e.1 == p) = true then (e.1, v) else e) = e := by
        simp [he]
      simp only [List.map_cons, hhd, List.find?_cons]
      rw [he]
      exact ih

/-- C4 (amended): with `include_checksums=False`, an already-tracked path
keeps its stored entry (checksum fields included) if and only if no compared
non-checksum attribute differs from the live snapshot; as soon as any
compared attribute differs, `_add_file` replaces the whole entry with the
fresh record, whose checksum fields are `None` exactly as for a newly
created entry. -/
theorem c4_addfile_checksum_frame (c : DirCache) (p : RelPath) (n : FSNode)
    (old : CacheFile) (hold : c.lookupFile p = some old) :
    (attrChanged (buildCacheRecord p n false) old false = false →
       (c.addFile p n false).lookupFile p = some old) ∧
    (attrChanged (buildCacheRecord p n false) old false = true →
       (c.addFile p n false).lookupFile p = some (buildCacheRecord p n false) ∧
       (buildCacheRecord p n false).md5 = none ∧
       (buildCacheRecord p n false).uncompressed_md5 = none) := by
  constructor
  · intro hch
    simp [DirCache.addFile, hold, hch]
  · intro hch
    refine ⟨?_, rfl, rfl⟩
    simp only [DirCache.addFile, hold, hch, if_true]
    obtain ⟨e, hfind, he2⟩ :
        ∃ e, (c.files.find? fun e => e.1 == p) = some e ∧ e.2 = old := by
      simp only [DirCache.lookupFile] at hold
      cases hf : c.files.find? fun e => e.1 == p with
      | none => rw [hf] at hold; cases hold
      | some e =>
        rw [hf] at hold
        exact ⟨e, rfl, Option.some_inj.mp hold⟩
    simp only [DirCache.lookupFile]
    rw [find?_map_replace, hfind]
    rfl

def c4Node : FSNode := FSNode.leaf "a" false { sampleMeta with size := 2 }

def c4NodeSame : FSNode := FSNode.leaf "a" false sampleMeta

/-- C4 witness: the amended theorem applied at concrete inputs — an
unchanged snapshot keeps the stored entry with its checksums, and a
size-changed snapshot installs the fresh record with `None` checksums. -/
theorem c4_witness :
    (c4Cache.addFile ["a"] c4NodeSame false).lookupFile ["a"] = some c4OldEntry ∧
    (c4Cache.addFile ["a"] c4Node false).lookupFile ["a"] =
      some (buildCacheRecord ["a"] c4Node false) :=
  ⟨(c4_addfile_checksum_frame c4Cache ["a"] c4NodeSame c4OldEntry (by rfl)).1
     (by decide),
   ((c4_addfile_checksum_frame c4Cache ["a"] c4Node c4OldEntry (by rfl)).2
     (by decide)).1⟩

/-! ## Claim C10 -/

/-- C10: for every symlink or directory entry, the checksum properties
return `None` rather than a digest, even when checksums are requested; and
consequently the `CacheFile` record `_add_file` creates for a directory or
symlink carries `None` in both checksum fields, for either value of
`include_checksums`. -/
theorem c10_no_checksums_for_links_and_dirs :
    (∀ f : ArchiveFile, f.is_link = true ∨ f.is_dir = true →
       f.md5 = none ∧ f.uncompressed_md5 = Except.ok none ∧
       f.uncompressed_md5_value = none) ∧
    (∀ (p : RelPath) (n : FSNode) (inc : Bool),
       n.ftype = "d" ∨ n.ftype = "s" →
       (buildCacheRecord p n inc).md5 = none ∧
       (buildCacheRecord p n inc).uncompressed_md5 = none) := by
  constructor
  · intro f hf
    have hc : (f.is_link || f.is_dir) = true := by
      rcases hf with h | h <;> simp [h]
    refine ⟨?_, ?_, ?_⟩
    · simp [ArchiveFile.md5, hc]
    · simp [ArchiveFile.uncompressed_md5, hc]
    · simp [ArchiveFile.uncompressed_md5_value, ArchiveFile.uncompressed_md5, hc]
  · intro p n inc hn
    have hlink : (n.toArchiveFile p).is_link = true ∨ (n.toArchiveFile p).is_dir = true := by
      rcases hn with h | h
      · right
        simp [FSNode.toArchiveFile, ArchiveFile.fromPath, ArchiveFile.is_dir, h]
      · left
        simp [FSNode.toArchiveFile, ArchiveFile.fromPath, ArchiveFile.is_link, h]
    have hc : ((n.toArchiveFile p).is_link || (n.toArchiveFile p).is_dir) = true := by
      rcases hlink with h | h <;> simp [h]
    constructor
    · simp only [buildCacheRecord]
      cases inc <;> simp [ArchiveFile.md5, hc]
    · simp only [buildCacheRecord]
      cases inc <;>
        simp [ArchiveFile.uncompressed_md5_value, ArchiveFile.uncompressed_md5, hc]

def c10Dir : ArchiveFile :=
  ArchiveFile.fromPath "data/subdir" "d" 4096 7 "0755" 0 0 true "" "zz" "zz"

/-- C10 witness: the theorem applied at a concrete directory snapshot and at
a concrete symlink node with checksums requested. -/
theorem c10_witness :
    c10Dir.md5 = none ∧ c10Dir.uncompressed_md5 = Except.ok none ∧
      c10Dir.uncompressed_md5_value = none ∧
    ((buildCacheRecord ["lnk"] (FSNode.leaf "lnk" true sampleMeta) true).md5 = none ∧
     (buildCacheRecord ["lnk"] (FSNode.leaf "lnk" true sampleMeta) true).uncompressed_md5 = none) := by
  have h1 := c10_no_checksums_for_links_and_dirs.1 c10Dir (Or.inr (by decide))
  have h2 := c10_no_checksums_for_links_and_dirs.2 ["lnk"]
    (FSNode.leaf "lnk" true sampleMeta) true (Or.inr (by decide))
  exact ⟨h1.1, h1.2.1, h1.2.2, h2⟩

end Arqvist

namespace Arqvist

/-! ## Claim C5: `update` reconciliation -/

theorem addFile_ignorePatterns (c : DirCache) (p : RelPath) (n : FSNode)
    (inc : Bool) : (c.addFile p n inc).ignorePatterns = c.ignorePatterns := by
  unfold DirCache.addFile
  cases c.lookupFile p with
  | none => rfl
  | some old =>
    dsimp only
    split <;> rfl

theorem updateStep_ignorePatterns (fs : List FSNode) (st : DirCache)
    (f : RelPath) : (updateStep fs st f).ignorePatterns = st.ignorePatterns := by
  unfold updateStep
  split
  · rfl
  · cases findNode fs f with
    | none => rfl
    | some n => exact addFile_ignorePatterns st f n false

theorem buildStep_ignorePatterns (fs : List FSNode)
    (ps : Option (List String)) (inc : Bool) (st : DirCache) (f : RelPath) :
    (buildStep fs ps inc st f).ignorePatterns = st.ignorePatterns := by
  unfold buildStep
  split
  · rfl
  · split
    · rfl
    · cases findNode fs f with
      | none => rfl
      | some n => exact addFile_ignorePatterns st f n inc

theorem build_ignorePatterns (c : DirCache) (fs : List FSNode)
    (ps : Option (List String)) (inc : Bool) :
    (c.build fs ps inc).ignorePatterns = c.ignorePatterns := by
  unfold DirCache.build
  generalize dirWalk fs = l
  induction l generalizing c with
  | nil => rfl
  | cons f l ih =>
    rw [List.foldl_cons, ih, buildStep_ignorePatterns]

theorem ignore_congr {c c2 : DirCache}
    (h : c.ignorePatterns = c2.ignorePatterns) (f : RelPath) :
    c.ignore f = c2.ignore f := by
  simp [DirCache.ignore, h]

theorem addFile_keys_of_isSome (c : DirCache) (p : RelPath) (n : FSNode)
    (inc : Bool) (h : (c.lookupFile p).isSome) :
    (c.addFile p n inc).keys = c.keys := by
  unfold DirCache.addFile
  cases hl : c.lookupFile p with
  | none => rw [hl] at h; cases h
  | some old =>
    dsimp only
    split
    · simp only [DirCache.keys, List.map_map]
      apply List.map_congr_left
      intro e _
      by_cases he : e.1 = p <;> simp [he]
    · rfl

theorem addFile_keys_of_none (c : DirCache) (p : RelPath) (n : FSNode)
    (inc : Bool) (h : c.lookupFile p = none) :
    (c.addFile p n inc).keys = c.keys ++ [p] := by
  unfold DirCache.addFile
  rw [h]
  simp [DirCache.keys]

theorem removeKey_mem (st : DirCache) (f k : RelPath) :
    (k ∈ (DirCache.mk (st.files.filter fun e => !(e.1 == f))
        st.ignorePatterns).keys) ↔ (k ∈ st.keys ∧ k ≠ f) := by
  simp only [DirCache.keys, List.mem_map, List.mem_filter]
  constructor
  · rintro ⟨e, ⟨he, hne⟩, rfl⟩
    refine ⟨⟨e, he, rfl⟩, ?_⟩
    simpa using hne
  · rintro ⟨⟨e, he, rfl⟩, hne⟩
    exact ⟨e, ⟨he, by simpa using hne⟩, rfl⟩

theorem removeKey_nodup (st : DirCache) (f : RelPath) (h : st.keys.Nodup) :
    (DirCache.mk (st.files.filter fun e => !(e.1 == f))
        st.ignorePatterns).keys.Nodup := by
  simp only [DirCache.keys] at h ⊢
  exact (List.Sublist.map _ (List.filter_sublist _)).nodup h

theorem addFile_keys_nodup (c : DirCache) (p : RelPath) (n : FSNode)
    (inc : Bool) (h : c.keys.Nodup) : (c.addFile p n inc).keys.Nodup := by
  cases hl : c.lookupFile p with
  | none =>
    rw [addFile_keys_of_none c p n inc hl]
    have hnp : p ∉ c.keys := by
      rw [← lookupFile_eq_none_iff]
      exact hl
    simp [List.nodup_append, h, hnp]
  | some old =>
    rw [addFile_keys_of_isSome c p n inc (by simp [hl])]
    exact h

end Arqvist

namespace Arqvist

theorem buildStep_keys_nodup (fs : List FSNode) (ps : Option (List String))
    (inc : Bool) (st : DirCache) (f : RelPath) (h : st.keys.Nodup) :
    (buildStep fs ps inc st f).keys.Nodup := by
  unfold buildStep
  split
  · exact h
  · split
    · exact h
    · cases findNode fs f with
      | none => exact h
      | some n => exact addFile_keys_nodup st f n inc h

theorem build_keys_nodup (c : DirCache) (fs : List FSNode)
    (ps : Option (List String)) (inc : Bool) (h : c.keys.Nodup) :
    (c.build fs ps inc).keys.Nodup := by
  unfold DirCache.build
  generalize dirWalk fs = l
  induction l generalizing c with
  | nil => exact h
  | cons f l ih =>
    rw [List.foldl_cons]
    exact ih _ (buildStep_keys_nodup fs ps inc c f h)

theorem insertSorted_nodup (p : RelPath) (l : List RelPath) (hp : p ∉ l)
    (h : l.Nodup) : (insertSorted p l).Nodup := by
  induction l with
  | nil => simp [insertSorted]
  | cons q qs ih =>
    by_cases hle : pathLe p q
    · rw [insertSorted, if_pos hle]
      exact List.nodup_cons.mpr ⟨hp, h⟩
    · rw [insertSorted, if_neg hle]
      obtain ⟨hq, hqs⟩ := List.nodup_cons.mp h
      have hpqs : p ∉ qs := fun hm => hp (List.mem_cons_of_mem q hm)
      have hpq : p ≠ q := fun he => hp (he ▸ List.mem_cons_self q qs)
      refine List.nodup_cons.mpr ⟨?_, ih hpqs hqs⟩
      rw [mem_insertSorted]
      rintro (rfl | hm)
      · exact hpq rfl
      · exact hq hm

theorem sortPaths_nodup (l : List RelPath) (h : l.Nodup) :
    (sortPaths l).Nodup := by
  induction l with
  | nil => simp [sortPaths]
  | cons p ps ih =>
    obtain ⟨hp, hps⟩ := List.nodup_cons.mp h
    have : sortPaths (p :: ps) = insertSorted p (sortPaths ps) := rfl
    rw [this]
    exact insertSorted_nodup p _ (fun hm => hp (mem_sortPaths.mp hm)) (ih hps)

theorem sortedKeys_nodup (c : DirCache) (h : c.keys.Nodup) :
    c.sortedKeys.Nodup := sortPaths_nodup c.keys h

/-- Membership of keys after the deletion/refresh loop of `update`: a key of
the starting state survives iff, whenever the loop visits it, it is neither
ignored nor vanished from disk. -/
theorem updateLoop_mem_keys (fs : List FSNode) :
    ∀ (l : List RelPath) (st : DirCache),
      (∀ k ∈ l, k ∈ st.keys) → st.keys.Nodup → l.Nodup →
      ∀ k, k ∈ (l.foldl (updateStep fs) st).keys ↔
        (k ∈ st.keys ∧ (k ∈ l →
          (st.ignore k = false ∧ lexists fs k = true))) := by
  intro l
  induction l with
  | nil =>
    intro st _ _ _ k
    simp
  | cons f l ih =>
    intro st hsub hnd hlnd k
    have hf : f ∈ st.keys := hsub f (List.mem_cons_self f l)
    obtain ⟨hfl, hlnd2⟩ := List.nodup_cons.mp hlnd
    have hig : ∀ x, (updateStep fs st f).ignore x = st.ignore x :=
      fun x => ignore_congr (updateStep_ignorePatterns fs st f) x
    rw [List.foldl_cons]
    by_cases hcond : (st.ignore f || !(lexists fs f)) = true
    · have hkeys : ∀ x, x ∈ (updateStep fs st f).keys ↔ (x ∈ st.keys ∧ x ≠ f) := by
        intro x
        unfold updateStep
        rw [if_pos hcond]
        exact removeKey_mem st f x
      have hnd2 : (updateStep fs st f).keys.Nodup := by
        unfold updateStep
        rw [if_pos hcond]
        exact removeKey_nodup st f hnd
      have hsub2 : ∀ x ∈ l, x ∈ (updateStep fs st f).keys := by
        intro x hx
        rw [hkeys]
        exact ⟨hsub x (List.mem_cons_of_mem f hx), fun hxf => hfl (hxf ▸ hx)⟩
      rw [ih (updateStep fs st f) hsub2 hnd2 hlnd2 k]
      have hCf : ¬(st.ignore f = false ∧ lexists fs f = true) := by
        rcases Bool.or_eq_true_iff.mp hcond with h | h
        · intro hc
          rw [hc.1] at h
          cases h
        · intro hc
          rw [hc.2] at h
          cases h
      constructor
      · rintro ⟨hk, himp⟩
        rw [hkeys] at hk
        refine ⟨hk.1, fun hm => ?_⟩
        rcases List.mem_cons.mp hm with rfl | hm2
        · exact absurd rfl hk.2
        · have := himp hm2
          rwa [hig] at this
      · rintro ⟨hk, himp⟩
        have hkne : k ≠ f := by
          rintro rfl
          exact hCf (himp (List.mem_cons_self k l))
        refine ⟨(hkeys k).mpr ⟨hk, hkne⟩, fun hm => ?_⟩
        rw [hig]
        exact himp (List.mem_cons_of_mem f hm)
    · have hcond2 : st.ignore f = false ∧ lexists fs f = true := by
        have := Bool.or_eq_false_iff.mp (Bool.not_eq_true _ |>.mp hcond)
        exact ⟨this.1, by simpa using this.2⟩
      obtain ⟨n, hn⟩ : ∃ n, findNode fs f = some n := by
        have := hcond2.2
        rw [lexists, Option.isSome_iff_exists] at this
        exact this
      have hstep : updateStep fs st f = st.addFile f n false := by
        unfold updateStep
        rw [if_neg (by simp [hcond]), hn]
      have hkeys : (updateStep fs st f).keys = st.keys := by
        rw [hstep]
        exact addFile_keys_of_isSome st f n false (lookupFile_isSome_iff.mpr hf)
      have hsub2 : ∀ x ∈ l, x ∈ (updateStep fs st f).keys := by
        intro x hx
        rw [hkeys]
        exact hsub x (List.mem_cons_of_mem f hx)
      have hnd2 : (updateStep fs st f).keys.Nodup := by
        rw [hkeys]
        exact hnd
      rw [ih (updateStep fs st f) hsub2 hnd2 hlnd2 k, hkeys]
      constructor
      · rintro ⟨hk, himp⟩
        refine ⟨hk, fun hm => ?_⟩
        rcases List.mem_cons.mp hm with rfl | hm2
        · exact hcond2
        · have := himp hm2
          rwa [hig] at this
      · rintro ⟨hk, himp⟩
        refine ⟨hk, fun hm => ?_⟩
        rw [hig]
        exact himp (List.mem_cons_of_mem f hm)

end Arqvist

namespace Arqvist

/-- C5: `update()` first performs a `build` with the same arguments (its
definition is that build followed by the reconciliation loop over the
tracked paths), after which, for every relpath tracked after the build
phase, the entry is removed from the in-memory map if and only if the path
matches an ignore pattern or no longer exists on disk; entries of paths
that still exist and are not ignored are retained, and no other paths are
tracked. -/
theorem c5_update_reconciliation (c : DirCache) (fs : List FSNode)
    (ps : Option (List String)) (inc : Bool) (hnd : c.keys.Nodup) :
    (∀ k ∈ (c.update fs ps inc).keys, k ∈ (c.build fs ps inc).keys) ∧
    (∀ k ∈ (c.build fs ps inc).keys,
       (k ∈ (c.update fs ps inc).keys ↔
          ¬(c.ignore k = true ∨ lexists fs k = false))) := by
  have hnd1 : (c.build fs ps inc).keys.Nodup := build_keys_nodup c fs ps inc hnd
  have hmain := updateLoop_mem_keys fs (c.build fs ps inc).sortedKeys
    (c.build fs ps inc) (fun k hk => mem_sortedKeys.mp hk)
    hnd1 (sortedKeys_nodup _ hnd1)
  have hupdate : c.update fs ps inc =
      (c.build fs ps inc).sortedKeys.foldl (updateStep fs)
        (c.build fs ps inc) := rfl
  have higeq : ∀ x, (c.build fs ps inc).ignore x = c.ignore x :=
    fun x => ignore_congr (build_ignorePatterns c fs ps inc) x
  constructor
  · intro k hk
    rw [hupdate] at hk
    exact ((hmain k).mp hk).1
  · intro k hk
    rw [hupdate, hmain k]
    have hks : k ∈ (c.build fs ps inc).sortedKeys := mem_sortedKeys.mpr hk
    constructor
    · rintro ⟨_, himp⟩
      have hkc := himp hks
      rw [higeq] at hkc
      rintro (h | h)
      · rw [hkc.1] at h
        cases h
      · rw [hkc.2] at h
        cases h
    · intro hnot
      refine ⟨hk, fun _ => ?_⟩
      rw [higeq]
      have h1 : c.ignore k = false := by
        cases hig : c.ignore k
        · rfl
        · exact absurd (Or.inl hig) hnot
      have h2 : lexists fs k = true := by
        cases hex : lexists fs k
        · exact absurd (Or.inr hex) hnot
        · rfl
      exact ⟨h1, h2⟩

def c5wCache : DirCache :=
  ⟨[(["gone"], buildCacheRecord ["gone"] (FSNode.leaf "gone" false sampleMeta) false),
    (["keep"], buildCacheRecord ["keep"] (FSNode.leaf "keep" false sampleMeta) false),
    (["ign"], buildCacheRecord ["ign"] (FSNode.leaf "ign" false sampleMeta) false)],
   ["ign"]⟩

def c5wFs : List FSNode :=
  [FSNode.leaf "keep" false sampleMeta, FSNode.leaf "ign" false sampleMeta,
   FSNode.leaf "new" false sampleMeta]

/-- C5 witness: the theorem applied at a concrete state — a still-existing
unignored path survives `update`, a vanished path is removed. -/
theorem c5_witness :
    ["keep"] ∈ (c5wCache.update c5wFs none false).keys ∧
    ["gone"] ∉ (c5wCache.update c5wFs none false).keys :=
  ⟨((c5_update_reconciliation c5wCache c5wFs none false (by decide)).2
      ["keep"] (by decide)).mpr (by decide),
   fun hmem =>
     ((c5_update_reconciliation c5wCache c5wFs none false (by decide)).2
        ["gone"] (by decide)).mp hmem (Or.inr (by decide))⟩

end Arqvist

namespace Arqvist

/-! ## Manifest persistence (`DirCache.save` / `DirCache.load`)

The manifest is modelled as the full text of the file: a header line naming
the thirteen attribute columns, then one line of tab-separated `str(...)`
values per entry in sorted key order, each line terminated by a newline.
`str`/`int` on integers and `str`/`dateutil.parser.parse` on (abstract)
datetime instants are modelled by decimal printing/parsing with explicit
fuel so that the kernel can evaluate them. -/

def digitChar (n : Nat) : Char := Char.ofNat (48 + n)

def natDigitsAux : Nat → Nat → List Char
  | 0, _ => []
  | fuel + 1, n =>
    if n < 10 then [digitChar n]
    else natDigitsAux fuel (n / 10) ++ [digitChar (n % 10)]

/-- Decimal digits of `n` (`n + 1` units of fuel always suffice). -/
def natDigits (n : Nat) : List Char := natDigitsAux (n + 1) n

def natToStr (n : Nat) : String := String.mk (natDigits n)

/-- `str(i)` for a Python integer. -/
def intToStr (i : Int) : String :=
  if i < 0 then String.mk ('-' :: natDigits i.natAbs) else natToStr i.natAbs

def digitVal (c : Char) : Option Nat :=
  if 48 ≤ c.toNat ∧ c.toNat ≤ 57 then some (c.toNat - 48) else none

def parseDigitsAux (acc : Nat) : List Char → Option Nat
  | [] => some acc
  | c :: cs =>
    match digitVal c with
    | some d => parseDigitsAux (acc * 10 + d) cs
    | none => none

/-- Parse of a non-negative decimal numeral (a restriction of what Python
`int()` accepts; the manifest only ever contains plain numerals). -/
def parseNatStr (s : String) : Option Nat :=
  match s.data with
  | [] => none
  | cs => parseDigitsAux 0 cs

def parseIntChars : List Char → Option Int
  | [] => none
  | c :: cs =>
    if c = '-' then
      if cs.isEmpty then none
      else (parseDigitsAux 0 cs).map fun n => -(n : Int)
    else (parseDigitsAux 0 (c :: cs)).map fun n => (n : Int)

/-- `int(s)` over the strings the manifest can contain. -/
def parseIntStr (s : String) : Option Int := parseIntChars s.data

def attrNameStr : AttrName → String
  | .basename => "basename"
  | .type => "type"
  | .size => "size"
  | .timestamp => "timestamp"
  | .mode => "mode"
  | .uid => "uid"
  | .gid => "gid"
  | .ext => "ext"
  | .compression => "compression"
  | .md5 => "md5"
  | .uncompressed_md5 => "uncompressed_md5"
  | .target => "target"
  | .relpath => "relpath"

def strOfOptStr : Option String → String
  | none => "None"
  | some s => s

/-- `str(self[f][x])`: `None` prints as the literal `None`, integers and
datetimes print in their textual form. -/
def strOfAttrVal : AttrVal → String
  | .str v => strOfOptStr v
  | .int none => "None"
  | .int (some i) => intToStr i
  | .time none => "None"
  | .time (some t) => natToStr t
  | .method => "method"

def manifestHeader : String := "#" ++ pyJoin '\t' (attrNames.map attrNameStr)

def manifestRow (cf : CacheFile) : String :=
  pyJoin '\t' (attrNames.map fun a => strOfAttrVal (cf.attrVal a))

def emptyCacheFile : CacheFile :=
  ⟨none, none, none, none, none, none, none, none, none, none, none, none, none⟩

/-- `DirCache.save()`: the manifest text written to disk (header line, then
one row per tracked path in sorted order; `getD` is never hit because every
sorted key is tracked). -/
def DirCache.save (c : DirCache) : String :=
  pyJoin '\n'
    (manifestHeader ::
      c.sortedKeys.map fun k => manifestRow ((c.lookupFile k).getD emptyCacheFile))
    ++ "\n"

/-- Iterating a text file line by line (each yielded line has its trailing
newline removed by `rstrip` before use): the segments between newlines,
without the empty segment after a final newline. -/
def pyLines (content : String) : List String :=
  let parts := pySplit '\n' content
  if parts.getLast? = some "" then parts.dropLast else parts

/-- `line[1:]`. -/
def stringDrop1 (s : String) : String := String.mk s.data.tail

/-- Python whitespace stripped by `str.rstrip()`. -/
def isPyWs (c : Char) : Bool := c == ' ' || c == '\t' || c == '\n' || c == '\x0d'

def rstripWs (s : String) : String :=
  String.mk (s.data.reverse.dropWhile isPyWs).reverse

/-- The ignore-file parse performed at the start of `load()`: strip each
line, skip `#`-prefixed lines, keep the rest (including empty lines, as the
source does). -/
def parseIgnoreFile : Option String → List String
  | none => []
  | some content =>
    (pyLines content).filterMap fun line =>
      let line2 := rstripWs line
      if line2.startsWith "#" then none else some line2

/-- String-stage record for `CacheFile.__init__` when called with the
`**data` keyword values read from a manifest: every assigned value is a
string (or `None` after the `'None'` check); the integer/datetime coercions
run after all assignments. -/
structure RawCacheFile where
  basename : Option String
  ftype : Option String
  size : Option String
  timestamp : Option String
  mode : Option String
  uid : Option String
  gid : Option String
  ext : Option String
  compression : Option String
  md5 : Option String
  uncompressed_md5 : Option String
  target : Option String
  relpath : Option String
deriving Repr

/-- Fields of a fresh `CacheFile(path)` before the keyword values are
applied: everything `None` except the path-derived attributes. -/
def rawFromPath (path : String) : RawCacheFile :=
  { basename := some (osBasename path)
    ftype := none
    size := none
    timestamp := none
    mode := none
    uid := none
    gid := none
    ext := some (get_file_extensions path).1
    compression := some (get_file_extensions path).2
    md5 := none
    uncompressed_md5 := none
    target := none
    relpath := some path }

/-- The `if self[x] == 'None': self[x] = None` normalisation. -/
def noneCheck (v : String) : Option String :=
  if v = "None" then none else some v

/-- One keyword assignment `self[x] = kws[x]`; an unrecognised key raises
`KeyError` (`none`). -/
def setRaw (r : RawCacheFile) (key v : String) : Option RawCacheFile :=
  if key = "basename" then some { r with basename := noneCheck v }
  else if key = "type" then some { r with ftype := noneCheck v }
  else if key = "size" then some { r with size := noneCheck v }
  else if key = "timestamp" then some { r with timestamp := noneCheck v }
  else if key = "mode" then some { r with mode := noneCheck v }
  else if key = "uid" then some { r with uid := noneCheck v }
  else if key = "gid" then some { r with gid := noneCheck v }
  else if key = "ext" then some { r with ext := noneCheck v }
  else if key = "compression" then some { r with compression := noneCheck v }
  else if key = "md5" then some { r with md5 := noneCheck v }
  else if key = "uncompressed_md5" then some { r with uncompressed_md5 := noneCheck v }
  else if key = "target" then some { r with target := noneCheck v }
  else if key = "relpath" then some { r with relpath := noneCheck v }
  else none

/-- `int(...)` coercion of a possibly-`None` field; `none` result models a
propagating `ValueError`. -/
def coerceIntField : Option String → Option (Option Int)
  | none => some none
  | some s => (parseIntStr s).map some

/-- `dateutil.parser.parse(str(...))` coercion; `none` models a propagating
parse error. -/
def coerceTimeField : Option String → Option (Option Nat)
  | none => some none
  | some s => (parseNatStr s).map some

/-- `CacheFile(relpath, **data)` for manifest data: apply each assignment in
order, then coerce `size`, `uid`, `gid` to integers and `timestamp` to a
datetime.  `none` models a propagating `KeyError`/`ValueError`. -/
def CacheFile.fromManifest (path : String) (data : List (String × String)) :
    Option CacheFile :=
  match data.foldl (fun acc kv => acc.bind fun r => setRaw r kv.1 kv.2)
      (some (rawFromPath path)) with
  | none => none
  | some r =>
    match coerceIntField r.size, coerceIntField r.uid, coerceIntField r.gid,
        coerceTimeField r.timestamp with
    | some size, some uid, some gid, some ts =>
      some
        { basename := r.basename
          ftype := r.ftype
          size := size
          timestamp := ts
          mode := r.mode
          uid := uid
          gid := gid
          ext := r.ext
          compression := r.compression
          md5 := r.md5
          uncompressed_md5 := r.uncompressed_md5
          target := r.target
          relpath := r.relpath }
    | _, _, _, _ => none

/-- `dict(zip(attributes, values))[key]`: last occurrence wins, missing key
is a `KeyError`. -/
def dictLookup (data : List (String × String)) (key : String) : Option String :=
  (data.reverse.find? fun kv => kv.1 == key).map (·.2)

/-- `self._files[relpath] = adf` on the in-memory map. -/
def assocSet (m : List (RelPath × CacheFile)) (k : RelPath) (v : CacheFile) :
    List (RelPath × CacheFile) :=
  if m.any fun e => e.1 == k then
    m.map fun e => if e.1 == k then (e.1, v) else e
  else m ++ [(k, v)]

/-- One line of the manifest-reading loop of `load()`: the first line
(minus its first character) names the columns, every further line is split
on tabs, zipped against the column names and turned into a `CacheFile`
stored under its `relpath` value.  The state is the column names seen so
far (`none` before the header line) and the entries read; `none` overall
models a propagating exception. -/
def manifestStep (acc : Option (Option (List String) × List (RelPath × CacheFile)))
    (line : String) : Option (Option (List String) × List (RelPath × CacheFile)) :=
  acc.bind fun st =>
    match st.1 with
    | none => some (some (pySplit '\t' (stringDrop1 line)), st.2)
    | some attrs =>
      let values := pySplit '\t' line
      let data := List.zip attrs values
      match dictLookup data "relpath" with
      | none => none
      | some relpath =>
        match CacheFile.fromManifest relpath data with
        | none => none
        | some adf => some (some attrs, assocSet st.2 (pySplit '/' relpath) adf)

def parseManifest (content : String) : Option (List (RelPath × CacheFile)) :=
  match (pyLines content).foldl manifestStep (some (none, [])) with
  | some st => some st.2
  | none => none

/-- `DirCache.load()` as run by a fresh instance: read the ignore patterns
(if an ignore file exists), then the manifest (if one exists; `false` means
the caller should `build` instead).  The key of each loaded entry is its
`relpath` manifest value.  `none` models a propagating exception. -/
def DirCache.load (ignoreFile manifestFile : Option String) :
    Option (Bool × DirCache) :=
  let ignore := parseIgnoreFile ignoreFile
  match manifestFile with
  | none => some (false, ⟨[], ignore⟩)
  | some content =>
    match parseManifest content with
    | none => none
    | some files => some (true, ⟨files, ignore⟩)

end Arqvist

namespace Arqvist

/-! ## Claim C3 counterexample -/

def c3BadFs : List FSNode := [FSNode.leaf "a\tb" false sampleMeta]

def c3BadCache : DirCache := DirCache.build ⟨[], []⟩ c3BadFs none false

/-- C3 counterexample: a cache built over a directory containing a file
whose name holds a tab character matches the source directory (`status`
reports empty deleted/modified/untracked), but `save()` writes the tab raw
into the tab-separated manifest, so the fresh `load()` mis-splits the row,
zip-truncates it against the column names, and crashes converting the
misaligned `size` column (`int('f')`, a `ValueError`): the fresh instance
cannot even be constructed, let alone report a clean `status`. -/
theorem c3_counterexample :
    ((c3BadCache.status c3BadFs none defaultStatusAttrs).1 = [] ∧
     (c3BadCache.status c3BadFs none defaultStatusAttrs).2.1 = [] ∧
     (c3BadCache.status c3BadFs none defaultStatusAttrs).2.2.1 = []) ∧
    DirCache.load none (some c3BadCache.save) = none := by
  exact ⟨⟨rfl, rfl, rfl⟩, by decide⟩

end Arqvist

namespace Arqvist

/-! ### Split/join round-trip lemmas -/

theorem splitCh_no_sep {sep : Char} :
    ∀ {g : List Char}, sep ∉ g → splitCh sep g = [g] := by
  intro g
  induction g with
  | nil => intro _; rfl
  | cons c cs ih =>
    intro h
    have hc : c ≠ sep := fun he => h (he ▸ List.mem_cons_self c cs)
    have hcs : sep ∉ cs := fun hm => h (List.mem_cons_of_mem c hm)
    rw [splitCh, ih hcs]
    simp [hc]

theorem splitCh_append_sep {sep : Char} :
    ∀ {g : List Char}, sep ∉ g → ∀ (rest : List Char),
      splitCh sep (g ++ sep :: rest) = g :: splitCh sep rest := by
  intro g
  induction g with
  | nil =>
    intro _ rest
    rw [List.nil_append, splitCh]
    cases h : splitCh sep rest with
    | nil => exact absurd h (splitCh_ne_nil sep rest)
    | cons r rs => simp
  | cons c cs ih =>
    intro h rest
    have hc : c ≠ sep := fun he => h (he ▸ List.mem_cons_self c cs)
    have hcs : sep ∉ cs := fun hm => h (List.mem_cons_of_mem c hm)
    rw [List.cons_append, splitCh, ih hcs rest]
    simp [hc]

theorem splitCh_joinCh {sep : Char} :
    ∀ {gs : List (List Char)}, gs ≠ [] → (∀ g ∈ gs, sep ∉ g) →
      splitCh sep (joinCh sep gs) = gs := by
  intro gs
  induction gs with
  | nil => intro h; exact absurd rfl h
  | cons g rest ih =>
    intro _ hall
    cases rest with
    | nil =>
      rw [joinCh]
      exact splitCh_no_sep (hall g (List.mem_cons_self g []))
    | cons h2 t2 =>
      rw [joinCh, splitCh_append_sep (hall g (List.mem_cons_self g _)),
        ih (by simp) fun x hx => hall x (List.mem_cons_of_mem g hx)]

theorem string_data_mk (cs : List Char) : (String.mk cs).data = cs := rfl

theorem string_mk_data (s : String) : String.mk s.data = s := rfl

theorem pySplit_pyJoin {sep : Char} {xs : List String} (hne : xs ≠ [])
    (hsep : ∀ x ∈ xs, sep ∉ x.data) :
    pySplit sep (pyJoin sep xs) = xs := by
  unfold pySplit pyJoin
  rw [string_data_mk, splitCh_joinCh (by simpa using hne)
    (by
      intro g hg
      obtain ⟨x, hx, rfl⟩ := List.mem_map.mp hg
      exact hsep x hx)]
  rw [List.map_map]
  have hcong : ∀ x ∈ xs, (String.mk ∘ String.data) x = id x := fun x _ => rfl
  rw [List.map_congr_left hcong, List.map_id]

theorem joinCh_concat_nil (sep : Char) :
    ∀ (gs : List (List Char)), gs ≠ [] →
      joinCh sep (gs ++ [[]]) = joinCh sep gs ++ [sep] := by
  intro gs
  induction gs with
  | nil => intro h; exact absurd rfl h
  | cons g rest ih =>
    intro _
    cases rest with
    | nil => rfl
    | cons h2 t2 =>
      have hih := ih (by simp)
      have e1 : (g :: h2 :: t2) ++ [[]] = g :: h2 :: (t2 ++ [[]]) := by simp
      rw [e1, joinCh]
      have e2 : h2 :: (t2 ++ [[]]) = (h2 :: t2) ++ [[]] := by simp
      rw [e2, hih, joinCh]
      simp

end Arqvist

namespace Arqvist

theorem pyJoin_append_newline (lines : List String) (hne : lines ≠ []) :
    pyJoin '\n' lines ++ "\n" = pyJoin '\n' (lines ++ [""]) := by
  apply String.ext
  show (pyJoin '\n' lines ++ "\n").data = (pyJoin '\n' (lines ++ [""])).data
  rw [String.data_append]
  unfold pyJoin
  rw [string_data_mk, string_data_mk, List.map_append]
  show joinCh '\n' (List.map String.data lines) ++ ['\n'] =
    joinCh '\n' (List.map String.data lines ++ [[]])
  rw [joinCh_concat_nil '\n' _ (by simpa using hne)]

theorem pyLines_join (lines : List String) (hne : lines ≠ [])
    (hnl : ∀ l ∈ lines, '\n' ∉ l.data) :
    pyLines (pyJoin '\n' lines ++ "\n") = lines := by
  rw [pyJoin_append_newline lines hne]
  unfold pyLines
  rw [pySplit_pyJoin (by simp)
    (by
      intro x hx
      rcases List.mem_append.mp hx with h | h
      · exact hnl x h
      · simp only [List.mem_singleton] at h
        subst h
        simp [String.data])]
  simp [List.getLast?_concat, List.dropLast_concat]

/-! ### Decimal round-trip lemmas -/

theorem digitVal_digitChar {d : Nat} (hd : d < 10) :
    digitVal (digitChar d) = some d := by
  interval_cases d <;> decide

theorem digitChar_clean {d : Nat} (hd : d < 10) :
    digitChar d ≠ '\t' ∧ digitChar d ≠ '\n' ∧ digitChar d ≠ '-' ∧
      digitChar d ≠ 'N' := by
  interval_cases d <;> decide

theorem natDigitsAux_ne_nil {fuel n : Nat} (h : n < fuel) :
    natDigitsAux fuel n ≠ [] := by
  cases fuel with
  | zero => omega
  | succ f =>
    rw [natDigitsAux]
    split <;> simp

theorem natDigitsAux_digits {fuel : Nat} :
    ∀ {n : Nat}, n < fuel → ∀ c ∈ natDigitsAux fuel n, ∃ d, d < 10 ∧ c = digitChar d := by
  induction fuel with
  | zero => intro n h; omega
  | succ f ih =>
    intro n h c hc
    rw [natDigitsAux] at hc
    by_cases h10 : n < 10
    · rw [if_pos h10] at hc
      simp only [List.mem_singleton] at hc
      exact ⟨n, h10, hc⟩
    · rw [if_neg h10] at hc
      rcases List.mem_append.mp hc with h1 | h1
      · have hlt : n / 10 < f := by omega
        exact ih hlt c h1
      · simp only [List.mem_singleton] at h1
        exact ⟨n % 10, by omega, h1⟩

theorem parseDigitsAux_append (acc : Nat) (xs ys : List Char) :
    parseDigitsAux acc (xs ++ ys) =
      (match parseDigitsAux acc xs with
       | some a => parseDigitsAux a ys
       | none => none) := by
  induction xs generalizing acc with
  | nil => rfl
  | cons x xs ih =>
    rw [List.cons_append, parseDigitsAux, parseDigitsAux]
    cases digitVal x with
    | none => rfl
    | some d => exact ih (acc * 10 + d)

theorem natDigitsAux_parse {fuel : Nat} :
    ∀ {n : Nat}, n < fuel → ∀ acc,
      parseDigitsAux acc (natDigitsAux fuel n) =
        some (acc * 10 ^ (natDigitsAux fuel n).length + n) := by
  induction fuel with
  | zero => intro n h; omega
  | succ f ih =>
    intro n h acc
    rw [natDigitsAux]
    by_cases h10 : n < 10
    · rw [if_pos h10, parseDigitsAux, digitVal_digitChar h10]
      show some (acc * 10 + n) = _
      simp
    · rw [if_neg h10]
      have hlt : n / 10 < f := by omega
      rw [parseDigitsAux_append, ih hlt acc]
      show parseDigitsAux (acc * 10 ^ (natDigitsAux f (n / 10)).length + n / 10)
          [digitChar (n % 10)] = _
      rw [parseDigitsAux, digitVal_digitChar (show n % 10 < 10 by omega)]
      show some ((acc * 10 ^ (natDigitsAux f (n / 10)).length + n / 10) * 10 +
          n % 10) = _
      have hlen : (natDigitsAux f (n / 10) ++ [digitChar (n % 10)]).length =
          (natDigitsAux f (n / 10)).length + 1 := by simp
      rw [hlen, pow_succ]
      congr 1
      generalize 10 ^ (natDigitsAux f (n / 10)).length = P
      have h2 : (acc * P + n / 10) * 10 + n % 10 =
          acc * (P * 10) + (n / 10 * 10 + n % 10) := by ring
      rw [h2]
      congr 1
      omega

end Arqvist

namespace Arqvist

theorem parseNat_natToStr (n : Nat) : parseNatStr (natToStr n) = some n := by
  unfold parseNatStr natToStr natDigits
  have hne := natDigitsAux_ne_nil (show n < n + 1 by omega)
  rw [string_data_mk]
  cases hd : natDigitsAux (n + 1) n with
  | nil => exact absurd hd hne
  | cons c cs =>
    show parseDigitsAux 0 (c :: cs) = some n
    rw [← hd, natDigitsAux_parse (show n < n + 1 by omega) 0]
    simp

theorem natDigits_ne_None_data (n : Nat) : natDigits n ≠ "None".data := by
  intro h
  have h1 : 'N' ∈ natDigits n := by
    rw [h]
    decide
  obtain ⟨d, hd, he⟩ := natDigitsAux_digits (show n < n + 1 by omega) 'N' h1
  exact (digitChar_clean hd).2.2.2 he.symm

theorem noneCheck_natToStr (n : Nat) :
    noneCheck (natToStr n) = some (natToStr n) := by
  unfold noneCheck
  rw [if_neg]
  intro h
  exact natDigits_ne_None_data n (congrArg String.data h)

theorem noneCheck_intToStr (i : Int) :
    noneCheck (intToStr i) = some (intToStr i) := by
  unfold noneCheck
  rw [if_neg]
  intro h
  unfold intToStr at h
  by_cases hneg : i < 0
  · rw [if_pos hneg] at h
    have := congrArg String.data h
    rw [string_data_mk] at this
    have hN : '-' = 'N' := by
      have : '-' :: natDigits i.natAbs = ['N', 'o', 'n', 'e'] := this
      exact (List.cons.injEq _ _ _ _).mp this |>.1
    cases hN
  · rw [if_neg hneg] at h
    exact natDigits_ne_None_data i.natAbs (congrArg String.data h)

theorem parseInt_intToStr (i : Int) : parseIntStr (intToStr i) = some i := by
  unfold parseIntStr intToStr
  have hne := natDigitsAux_ne_nil (show i.natAbs < i.natAbs + 1 by omega)
  by_cases hneg : i < 0
  · rw [if_pos hneg, string_data_mk, parseIntChars, if_pos rfl,
      if_neg (by simpa using hne)]
    unfold natDigits
    rw [natDigitsAux_parse (show i.natAbs < i.natAbs + 1 by omega) 0,
      show (0 : Nat) * 10 ^ (natDigitsAux (i.natAbs + 1) i.natAbs).length +
        i.natAbs = i.natAbs from by simp]
    show some (-(i.natAbs : Int)) = some i
    congr 1
    omega
  · rw [if_neg hneg]
    unfold natToStr natDigits
    rw [string_data_mk]
    cases hd : natDigitsAux (i.natAbs + 1) i.natAbs with
    | nil => exact absurd hd hne
    | cons c cs =>
      have hcd : ∃ d, d < 10 ∧ c = digitChar d := by
        apply natDigitsAux_digits (show i.natAbs < i.natAbs + 1 by omega)
        rw [hd]
        exact List.mem_cons_self c cs
      obtain ⟨d, hdlt, rfl⟩ := hcd
      rw [parseIntChars, if_neg (by
        intro hcontra
        exact (digitChar_clean hdlt).2.2.1 hcontra)]
      show ((parseDigitsAux 0 (digitChar d :: cs)).map fun n => (n : Int)) = some i
      rw [← hd, natDigitsAux_parse (show i.natAbs < i.natAbs + 1 by omega) 0,
        show (0 : Nat) * 10 ^ (natDigitsAux (i.natAbs + 1) i.natAbs).length +
          i.natAbs = i.natAbs from by simp]
      show some ((i.natAbs : Int)) = some i
      congr 1
      omega

theorem reparse_int (v : Option Int) :
    coerceIntField (noneCheck (strOfAttrVal (AttrVal.int v))) = some v := by
  cases v with
  | none => decide
  | some i =>
    show coerceIntField (noneCheck (intToStr i)) = some (some i)
    rw [noneCheck_intToStr]
    show (parseIntStr (intToStr i)).map some = some (some i)
    rw [parseInt_intToStr]
    rfl

theorem reparse_time (v : Option Nat) :
    coerceTimeField (noneCheck (strOfAttrVal (AttrVal.time v))) = some v := by
  cases v with
  | none => decide
  | some t =>
    show coerceTimeField (noneCheck (natToStr t)) = some (some t)
    rw [noneCheck_natToStr]
    show (parseNatStr (natToStr t)).map some = some (some t)
    rw [parseNat_natToStr]
    rfl

theorem natToStr_clean (n : Nat) :
    '\t' ∉ (natToStr n).data ∧ '\n' ∉ (natToStr n).data := by
  constructor <;>
  · intro h
    rw [natToStr, string_data_mk] at h
    obtain ⟨d, hd, he⟩ := natDigitsAux_digits (show n < n + 1 by omega) _ h
    have := digitChar_clean hd
    first
    | exact this.1 he.symm
    | exact this.2.1 he.symm

theorem intToStr_clean (i : Int) :
    '\t' ∉ (intToStr i).data ∧ '\n' ∉ (intToStr i).data := by
  unfold intToStr
  by_cases hneg : i < 0
  · rw [if_pos hneg]
    constructor <;>
    · intro h
      rw [string_data_mk] at h
      rcases List.mem_cons.mp h with h1 | h1
      · cases h1
      · obtain ⟨d, hd, he⟩ :=
          natDigitsAux_digits (show i.natAbs < i.natAbs + 1 by omega) _ h1
        have := digitChar_clean hd
        first
        | exact this.1 he.symm
        | exact this.2.1 he.symm
  · rw [if_neg hneg]
    exact natToStr_clean i.natAbs

end Arqvist

namespace Arqvist

/-- String fields re-read from their `str(...)` form: a literal `"None"`
collapses to `None`, everything else survives unchanged. -/
def reparseStr (v : Option String) : Option String := noneCheck (strOfOptStr v)

/-- The entry reconstructed by `load` from one saved row: integer and
datetime fields round-trip exactly, string fields up to the `"None"`
collapse. -/
def reparsedEntry (cf : CacheFile) : CacheFile :=
  { basename := reparseStr cf.basename
    ftype := reparseStr cf.ftype
    size := cf.size
    timestamp := cf.timestamp
    mode := reparseStr cf.mode
    uid := cf.uid
    gid := cf.gid
    ext := reparseStr cf.ext
    compression := reparseStr cf.compression
    md5 := reparseStr cf.md5
    uncompressed_md5 := reparseStr cf.uncompressed_md5
    target := reparseStr cf.target
    relpath := reparseStr cf.relpath }

theorem fromManifest_roundtrip (path : String) (cf : CacheFile) :
    CacheFile.fromManifest path
      (List.zip (attrNames.map attrNameStr)
        (attrNames.map fun a => strOfAttrVal (cf.attrVal a))) =
      some (reparsedEntry cf) := by
  simp only [attrNames, List.map_cons, List.map_nil, attrNameStr,
    List.zip_cons_cons, List.zip_nil_right, CacheFile.fromManifest,
    List.foldl_cons, List.foldl_nil]
  simp only [setRaw, Option.some_bind, Option.bind_some, String.reduceEq,
    reduceIte]
  simp only [CacheFile.attrVal]
  rw [reparse_int cf.size, reparse_int cf.uid, reparse_int cf.gid,
    reparse_time cf.timestamp]
  simp only [reparsedEntry, reparseStr, CacheFile.attrVal]
  rfl

end Arqvist

namespace Arqvist

/-! ### Serializable entries -/

def cleanStr (s : String) : Bool := s.data.all fun ch => ch != '\t' && ch != '\n'

def optClean : Option String → Bool
  | none => true
  | some s => cleanStr s

/-- All string-valued fields of the entry are free of tab and newline
characters, so its manifest row can be split back into its fields.  The
numeric and datetime fields serialize to decimal text, which is always
clean. -/
def entrySerializable (cf : CacheFile) : Bool :=
  optClean cf.basename && optClean cf.ftype && optClean cf.mode &&
    optClean cf.ext && optClean cf.compression && optClean cf.md5 &&
    optClean cf.uncompressed_md5 && optClean cf.target && optClean cf.relpath

theorem optClean_spec {v : Option String} (h : optClean v = true) :
    '\t' ∉ (strOfOptStr v).data ∧ '\n' ∉ (strOfOptStr v).data := by
  cases v with
  | none => decide
  | some s =>
    unfold optClean cleanStr at h
    rw [List.all_eq_true] at h
    constructor <;> intro hm <;> have := h _ hm <;> simp at this

theorem strOfAttrVal_clean {cf : CacheFile} (hser : entrySerializable cf = true)
    (a : AttrName) :
    '\t' ∉ (strOfAttrVal (cf.attrVal a)).data ∧
    '\n' ∉ (strOfAttrVal (cf.attrVal a)).data := by
  unfold entrySerializable at hser
  simp only [Bool.and_eq_true] at hser
  obtain ⟨⟨⟨⟨⟨⟨⟨⟨h1, h2⟩, h3⟩, h4⟩, h5⟩, h6⟩, h7⟩, h8⟩, h9⟩ := hser
  cases a with
  | basename => exact optClean_spec h1
  | type => exact optClean_spec h2
  | size =>
    simp only [CacheFile.attrVal]
    cases hv : cf.size with
    | none => decide
    | some i => exact intToStr_clean i
  | timestamp =>
    simp only [CacheFile.attrVal]
    cases hv : cf.timestamp with
    | none => decide
    | some t => exact natToStr_clean t
  | mode => exact optClean_spec h3
  | uid =>
    simp only [CacheFile.attrVal]
    cases hv : cf.uid with
    | none => decide
    | some i => exact intToStr_clean i
  | gid =>
    simp only [CacheFile.attrVal]
    cases hv : cf.gid with
    | none => decide
    | some i => exact intToStr_clean i
  | ext => exact optClean_spec h4
  | compression => exact optClean_spec h5
  | md5 => exact optClean_spec h6
  | uncompressed_md5 => exact optClean_spec h7
  | target => exact optClean_spec h8
  | relpath => exact optClean_spec h9

theorem manifestRow_split (cf : CacheFile) (hser : entrySerializable cf = true) :
    pySplit '\t' (manifestRow cf) =
      attrNames.map fun a => strOfAttrVal (cf.attrVal a) := by
  unfold manifestRow
  apply pySplit_pyJoin (by simp [attrNames])
  intro x hx
  obtain ⟨a, _, rfl⟩ := List.mem_map.mp hx
  exact (strOfAttrVal_clean hser a).1

theorem mem_joinCh {sep c : Char} :
    ∀ {gs : List (List Char)}, c ∈ joinCh sep gs → c = sep ∨ ∃ g ∈ gs, c ∈ g := by
  intro gs
  induction gs with
  | nil => intro h; cases h
  | cons g rest ih =>
    intro h
    cases rest with
    | nil =>
      rw [joinCh] at h
      exact Or.inr ⟨g, List.mem_cons_self g [], h⟩
    | cons h2 t2 =>
      rw [joinCh] at h
      rcases List.mem_append.mp h with h1 | h1
      · exact Or.inr ⟨g, List.mem_cons_self g _, h1⟩
      · rcases List.mem_cons.mp h1 with rfl | h3
        · exact Or.inl rfl
        · rcases ih h3 with hl | ⟨g2, hg2, hcg⟩
          · exact Or.inl hl
          · exact Or.inr ⟨g2, List.mem_cons_of_mem g hg2, hcg⟩

theorem manifestRow_no_newline (cf : CacheFile)
    (hser : entrySerializable cf = true) : '\n' ∉ (manifestRow cf).data := by
  unfold manifestRow pyJoin
  rw [string_data_mk]
  intro h
  rcases mem_joinCh h with h1 | ⟨g, hg, hcg⟩
  · cases h1
  · rw [List.map_map] at hg
    obtain ⟨a, _, rfl⟩ := List.mem_map.mp hg
    exact (strOfAttrVal_clean hser a).2 hcg

theorem manifestHeader_no_newline : '\n' ∉ manifestHeader.data := by decide

theorem header_parse :
    pySplit '\t' (stringDrop1 manifestHeader) = attrNames.map attrNameStr := by
  decide

end Arqvist

namespace Arqvist

theorem dictLookup_relpath (cf : CacheFile) :
    dictLookup (List.zip (attrNames.map attrNameStr)
      (attrNames.map fun a => strOfAttrVal (cf.attrVal a))) "relpath" =
      some (strOfOptStr cf.relpath) := rfl

/-- Processing one saved row under the saved header reconstructs the
reparsed entry under the row's `relpath` key. -/
theorem manifestStep_row (files : List (RelPath × CacheFile)) (cf : CacheFile)
    (hser : entrySerializable cf = true) :
    manifestStep (some (some (attrNames.map attrNameStr), files))
        (manifestRow cf) =
      some (some (attrNames.map attrNameStr),
        assocSet files (pySplit '/' (strOfOptStr cf.relpath))
          (reparsedEntry cf)) := by
  unfold manifestStep
  rw [Option.some_bind]
  show (match some (attrNames.map attrNameStr) with
    | none => some (some (pySplit '\t' (stringDrop1 (manifestRow cf))), files)
    | some attrs =>
      let values := pySplit '\t' (manifestRow cf)
      let data := List.zip attrs values
      match dictLookup data "relpath" with
      | none => none
      | some relpath =>
        match CacheFile.fromManifest relpath data with
        | none => none
        | some adf => some (some attrs, assocSet files (pySplit '/' relpath) adf)) = _
  show (let values := pySplit '\t' (manifestRow cf)
    let data := List.zip (attrNames.map attrNameStr) values
    match dictLookup data "relpath" with
    | none => none
    | some relpath =>
      match CacheFile.fromManifest relpath data with
      | none => none
      | some adf =>
        some (some (attrNames.map attrNameStr),
          assocSet files (pySplit '/' relpath) adf)) = _
  rw [manifestRow_split cf hser]
  simp only [dictLookup_relpath, fromManifest_roundtrip]

/-- Folding the saved rows over `manifestStep` accumulates the reparsed
entries with `assocSet`. -/
theorem fold_manifestStep (c : DirCache) :
    ∀ (l : List RelPath) (files : List (RelPath × CacheFile)),
      (∀ k ∈ l, ∃ cf, c.lookupFile k = some cf ∧
          entrySerializable cf = true ∧ cf.relpath = some (relString k)) →
      ((l.map fun k =>
          manifestRow ((c.lookupFile k).getD emptyCacheFile)).foldl
        manifestStep (some (some (attrNames.map attrNameStr), files))) =
      some (some (attrNames.map attrNameStr),
        l.foldl
          (fun fs k =>
            assocSet fs (pySplit '/' (relString k))
              (reparsedEntry ((c.lookupFile k).getD emptyCacheFile)))
          files) := by
  intro l
  induction l with
  | nil => intro files _; rfl
  | cons k l ih =>
    intro files hall
    obtain ⟨cf, hcf, hser, hrel⟩ := hall k (List.mem_cons_self k l)
    rw [List.map_cons, List.foldl_cons, List.foldl_cons]
    rw [show (c.lookupFile k).getD emptyCacheFile = cf by rw [hcf]; rfl]
    rw [manifestStep_row files cf hser, hrel]
    show _ = some (some (attrNames.map attrNameStr),
      l.foldl _ (assocSet files (pySplit '/' (strOfOptStr (some (relString k))))
        (reparsedEntry cf)))
    rw [ih _ fun k2 hk2 => hall k2 (List.mem_cons_of_mem k hk2)]

theorem foldl_assocSet (g : RelPath → CacheFile) :
    ∀ (l : List RelPath) (acc : List (RelPath × CacheFile)),
      l.Nodup → (∀ k ∈ l, ∀ e ∈ acc, e.1 ≠ k) →
      l.foldl (fun fs k => assocSet fs k (g k)) acc =
        acc ++ l.map fun k => (k, g k) := by
  intro l
  induction l with
  | nil => intro acc _ _; simp
  | cons k l ih =>
    intro acc hnd hdisj
    obtain ⟨hkl, hlnd⟩ := List.nodup_cons.mp hnd
    rw [List.foldl_cons]
    have hany : (acc.any fun e => e.1 == k) = false := by
      rw [List.any_eq_false]
      intro e he
      simpa using hdisj k (List.mem_cons_self k l) e he
    rw [show assocSet acc k (g k) = acc ++ [(k, g k)] by
      unfold assocSet; rw [hany]; rfl]
    rw [ih (acc ++ [(k, g k)]) hlnd (by
      intro k2 hk2 e he
      rcases List.mem_append.mp he with h1 | h1
      · exact hdisj k2 (List.mem_cons_of_mem k hk2) e h1
      · simp only [List.mem_singleton] at h1
        subst h1
        intro hcontra
        have hkk2 : k = k2 := hcontra
        rw [hkk2] at hkl
        exact hkl hk2)]
    simp

theorem lookup_of_map_mem (g : RelPath → CacheFile) :
    ∀ (l : List RelPath) (k : RelPath), l.Nodup → k ∈ l →
      (((l.map fun k2 => (k2, g k2)).find? fun e => e.1 == k).map (·.2)) =
        some (g k) := by
  intro l
  induction l with
  | nil => intro k _ hk; cases hk
  | cons k0 l ih =>
    intro k hnd hk
    obtain ⟨hk0l, hlnd⟩ := List.nodup_cons.mp hnd
    rw [List.map_cons]
    rcases List.mem_cons.mp hk with rfl | hk2
    · rw [List.find?_cons_of_pos _ (by simp)]
      rfl
    · rw [List.find?_cons_of_neg _ (by
        simp only [beq_iff_eq]
        intro hcontra
        exact hk0l (hcontra ▸ hk2))]
      exact ih k hlnd hk2

theorem lookup_of_map_not_mem (g : RelPath → CacheFile) :
    ∀ (l : List RelPath) (k : RelPath), k ∉ l →
      ((l.map fun k2 => (k2, g k2)).find? fun e => e.1 == k) = none := by
  intro l
  induction l with
  | nil => intro k _; rfl
  | cons k0 l ih =>
    intro k hk
    rw [List.map_cons, List.find?_cons_of_neg _ (by
      simp only [beq_iff_eq]
      intro hcontra
      exact hk (hcontra ▸ List.mem_cons_self k0 l))]
    exact ih k fun h2 => hk (List.mem_cons_of_mem k0 h2)

theorem findNode_goodName :
    ∀ (p : RelPath) (fs : List FSNode), forestWf fs = true →
      ∀ {n : FSNode}, findNode fs p = some n →
        ∀ comp ∈ p, goodName comp = true := by
  intro p
  induction p with
  | nil => intro fs _ n h; cases h
  | cons c cs ih =>
    intro fs hwf n hfind comp hcomp
    have hfirst : ∀ {node : FSNode},
        (fs.find? fun m => m.name == c) = some node →
        goodName c = true ∧ node ∈ fs := by
      intro node hnode
      have hmem := List.mem_of_find?_eq_some hnode
      have hname := List.find?_some hnode
      simp only [beq_iff_eq] at hname
      have hgood : goodName node.name = true := by
        have := nodeWf_of_forestWf hwf node hmem
        cases node with
        | leaf nm link m => exact this
        | dir nm m ch => exact (nodeWf_dir this).1
      rw [hname] at hgood
      exact ⟨hgood, hmem⟩
    cases cs with
    | nil =>
      rw [findNode_singleton] at hfind
      obtain ⟨hgood, _⟩ := hfirst hfind
      simp only [List.mem_singleton] at hcomp
      subst hcomp
      exact hgood
    | cons d ds =>
      rw [findNode_cons_cons] at hfind
      cases hf : fs.find? fun m => m.name == c with
      | none => rw [hf] at hfind; cases hfind
      | some node =>
        rw [hf] at hfind
        cases node with
        | leaf _ _ _ => cases hfind
        | dir nm m children =>
          obtain ⟨hgood, hmem⟩ := hfirst hf
          rcases List.mem_cons.mp hcomp with rfl | h2
          · exact hgood
          · have hchwf : forestWf children = true :=
              (nodeWf_dir (nodeWf_of_forestWf hwf _ hmem)).2
            exact ih children hchwf hfind comp h2

theorem relString_roundtrip {k : RelPath} (hne : k ≠ [])
    (hgood : ∀ comp ∈ k, goodName comp = true) :
    pySplit '/' (relString k) = k := by
  unfold relString
  apply pySplit_pyJoin hne
  intro x hx hmem
  have := hgood x hx
  unfold goodName at this
  simp only [Bool.and_eq_true, List.all_eq_true] at this
  have := this.2 _ hmem
  simp at this

end Arqvist

namespace Arqvist

theorem pyLines_save (c : DirCache)
    (hclean : ∀ k ∈ c.sortedKeys,
      entrySerializable ((c.lookupFile k).getD emptyCacheFile) = true) :
    pyLines c.save =
      manifestHeader ::
        c.sortedKeys.map fun k =>
          manifestRow ((c.lookupFile k).getD emptyCacheFile) := by
  unfold DirCache.save
  apply pyLines_join _ (by simp)
  intro l hl
  rcases List.mem_cons.mp hl with rfl | hl2
  · exact manifestHeader_no_newline
  · obtain ⟨k, hk, rfl⟩ := List.mem_map.mp hl2
    exact manifestRow_no_newline _ (hclean k hk)

theorem parseManifest_save (c : DirCache) (hnd : c.keys.Nodup)
    (hall : ∀ k ∈ c.sortedKeys, ∃ cf, c.lookupFile k = some cf ∧
        entrySerializable cf = true ∧ cf.relpath = some (relString k))
    (hkeys : ∀ k ∈ c.sortedKeys, pySplit '/' (relString k) = k) :
    parseManifest c.save =
      some (c.sortedKeys.map fun k =>
        (k, reparsedEntry ((c.lookupFile k).getD emptyCacheFile))) := by
  unfold parseManifest
  rw [pyLines_save c (by
    intro k hk
    obtain ⟨cf, hcf, hser, _⟩ := hall k hk
    rw [hcf]
    exact hser)]
  rw [List.foldl_cons]
  have hheader : manifestStep (some (none, ([] : List (RelPath × CacheFile))))
      manifestHeader = some (some (attrNames.map attrNameStr), []) := by
    unfold manifestStep
    rw [Option.some_bind]
    show some (some (pySplit '\t' (stringDrop1 manifestHeader)),
      ([] : List (RelPath × CacheFile))) = _
    rw [header_parse]
  rw [hheader, fold_manifestStep c _ [] hall]
  have hfold : c.sortedKeys.foldl
      (fun fs k => assocSet fs (pySplit '/' (relString k))
        (reparsedEntry ((c.lookupFile k).getD emptyCacheFile))) [] =
    c.sortedKeys.foldl
      (fun fs k => assocSet fs k
        (reparsedEntry ((c.lookupFile k).getD emptyCacheFile))) [] := by
    apply List.foldl_ext
    intro acc k hk
    rw [hkeys k hk]
  rw [hfold,
    foldl_assocSet (fun k => reparsedEntry ((c.lookupFile k).getD emptyCacheFile))
      c.sortedKeys [] (sortedKeys_nodup c hnd) (by intro k _ e he; cases he)]
  rfl

theorem nodeFtype_ne_None (n : FSNode) : n.ftype ≠ "None" := by
  cases n with
  | dir _ _ _ => simp [FSNode.ftype]
  | leaf _ link _ =>
    cases link <;> simp [FSNode.ftype]

theorem compare_nil_typesize {cf : CacheFile} {p : RelPath} {n : FSNode}
    (h : cf.compare p n defaultStatusAttrs = []) :
    cf.ftype = some n.ftype ∧ cf.size = some n.meta.size := by
  unfold CacheFile.compare defaultStatusAttrs at h
  rw [List.filter_eq_nil_iff] at h
  constructor
  · have h1 := h AttrName.type (by simp)
    simp only [CacheFile.attrVal, archiveAttrVal, bne_iff_ne, ne_eq,
      not_not, AttrVal.str.injEq] at h1
    exact h1
  · have h1 := h AttrName.size (by simp)
    simp only [CacheFile.attrVal, archiveAttrVal, bne_iff_ne, ne_eq,
      not_not, AttrVal.int.injEq] at h1
    exact h1

theorem reparsedEntry_compare_nil {cf : CacheFile} {k : RelPath} {n : FSNode}
    (h : cf.compare k n defaultStatusAttrs = []) :
    (reparsedEntry cf).compare k n defaultStatusAttrs = [] := by
  obtain ⟨ht, hs⟩ := compare_nil_typesize h
  have hftype : reparseStr cf.ftype = some n.ftype := by
    rw [ht]
    unfold reparseStr strOfOptStr noneCheck
    rw [if_neg (nodeFtype_ne_None n)]
  unfold CacheFile.compare defaultStatusAttrs
  rw [List.filter_eq_nil_iff]
  intro a ha
  rcases List.mem_cons.mp ha with rfl | ha2
  · simp only [CacheFile.attrVal, reparsedEntry, archiveAttrVal, hftype,
      bne_iff_ne, ne_eq, not_not]
  · simp only [List.mem_singleton] at ha2
    subst ha2
    simp only [CacheFile.attrVal, reparsedEntry, archiveAttrVal, hs,
      bne_iff_ne, ne_eq, not_not]

end Arqvist

namespace Arqvist

theorem lookupFile_mem {c : DirCache} {k : RelPath} {cf : CacheFile}
    (h : c.lookupFile k = some cf) : (k, cf) ∈ c.files := by
  unfold DirCache.lookupFile at h
  cases hf : c.files.find? fun e => e.1 == k with
  | none => rw [hf] at h; cases h
  | some e =>
    rw [hf] at h
    have he2 : e.2 = cf := Option.some_inj.mp h
    have hmem := List.mem_of_find?_eq_some hf
    have hkey := List.find?_some hf
    simp only [beq_iff_eq] at hkey
    have he : e = (k, cf) := by
      cases e with
      | mk a b =>
        simp only at hkey he2
        rw [hkey, he2]
    rw [← he]
    exact hmem

/-- The in-memory state a fresh instance reconstructs from the saved
manifest of `c` (plus the ignore patterns it reads). -/
def reloadedCache (c : DirCache) (ig : List String) : DirCache :=
  ⟨c.sortedKeys.map fun k =>
      (k, reparsedEntry ((c.lookupFile k).getD emptyCacheFile)), ig⟩

theorem reloadedCache_keys (c : DirCache) (ig : List String) :
    (reloadedCache c ig).keys = c.sortedKeys := by
  show (c.sortedKeys.map fun k =>
    (k, reparsedEntry ((c.lookupFile k).getD emptyCacheFile))).map (·.1) =
    c.sortedKeys
  rw [List.map_map]
  have hcong : ∀ x ∈ c.sortedKeys,
      ((·.1) ∘ fun k =>
        (k, reparsedEntry ((c.lookupFile k).getD emptyCacheFile))) x = id x :=
    fun x _ => rfl
  rw [List.map_congr_left hcong, List.map_id]

theorem reloadedCache_lookup_mem (c : DirCache) (ig : List String)
    (hnd : c.keys.Nodup) {k : RelPath} (hk : k ∈ c.keys) :
    (reloadedCache c ig).lookupFile k =
      some (reparsedEntry ((c.lookupFile k).getD emptyCacheFile)) := by
  show ((c.sortedKeys.map fun k2 =>
    (k2, reparsedEntry ((c.lookupFile k2).getD emptyCacheFile))).find?
      fun e => e.1 == k).map (·.2) = _
  exact lookup_of_map_mem _ _ k (sortedKeys_nodup c hnd) (mem_sortedKeys.mpr hk)

theorem reloadedCache_lookup_not_mem (c : DirCache) (ig : List String)
    {k : RelPath} (hk : k ∉ c.keys) :
    (reloadedCache c ig).lookupFile k = none := by
  show ((c.sortedKeys.map fun k2 =>
    (k2, reparsedEntry ((c.lookupFile k2).getD emptyCacheFile))).find?
      fun e => e.1 == k).map (·.2) = none
  rw [lookup_of_map_not_mem _ _ k fun h => hk (mem_sortedKeys.mp h)]
  rfl

/-- C3 (amended): for every cache state over a well-formed source tree
whose entry set matches the source directory (empty deleted, modified and
untracked lists), with the source's own representation invariants (distinct
keys, each entry's `relpath` field naming its key, ignore patterns equal to
the persisted ignore file) and with every serialized string field free of
tab and newline characters, `save()` followed by a fresh `load()` succeeds
and reconstructs an entry set whose `status()` against the unchanged source
directory again reports empty deleted, modified and untracked lists.  (The
cleanliness condition is necessary: see the counterexample with a tab in a
file name.) -/
theorem c3_save_load_roundtrip (c : DirCache) (fs : List FSNode)
    (igFile : Option String)
    (hwf : forestWf fs = true)
    (hnd : c.keys.Nodup)
    (hig : c.ignorePatterns = parseIgnoreFile igFile)
    (hrel : ∀ e ∈ c.files, e.2.relpath = some (relString e.1))
    (hser : ∀ e ∈ c.files, entrySerializable e.2 = true)
    (hd : (c.status fs none defaultStatusAttrs).1 = [])
    (hm : (c.status fs none defaultStatusAttrs).2.1 = [])
    (hu : (c.status fs none defaultStatusAttrs).2.2.1 = []) :
    ∃ c2 : DirCache, DirCache.load igFile (some c.save) = some (true, c2) ∧
      (c2.status fs none defaultStatusAttrs).1 = [] ∧
      (c2.status fs none defaultStatusAttrs).2.1 = [] ∧
      (c2.status fs none defaultStatusAttrs).2.2.1 = [] := by
  have hlex : ∀ k ∈ c.keys, lexists fs k = true := by
    intro k hk
    by_contra hcon
    have hkf : lexists fs k = false := by
      cases hx : lexists fs k
      · rfl
      · exact absurd hx hcon
    have hmemd : k ∈ (c.status fs none defaultStatusAttrs).1 :=
      (status_deleted_mem c fs none defaultStatusAttrs k).mpr ⟨hk, rfl, hkf⟩
    rw [hd] at hmemd
    cases hmemd
  have hcmp : ∀ k ∈ c.keys, ∀ cf n, c.lookupFile k = some cf →
      findNode fs k = some n → cf.compare k n defaultStatusAttrs = [] := by
    intro k hk cf n hcf hn
    by_contra hne
    have hmemm : k ∈ (c.status fs none defaultStatusAttrs).2.1 :=
      (status_modified_mem c fs none defaultStatusAttrs k).mpr
        (Or.inr ⟨hk, rfl, cf, n, hcf, hn, hne⟩)
    rw [hm] at hmemm
    cases hmemm
  have hkeysplit : ∀ k ∈ c.keys, pySplit '/' (relString k) = k := by
    intro k hk
    obtain ⟨n, hn⟩ : ∃ n, findNode fs k = some n := by
      have hx := hlex k hk
      rw [lexists, Option.isSome_iff_exists] at hx
      exact hx
    have hne : k ≠ [] := by
      intro hk0
      rw [hk0, show findNode fs [] = none from rfl] at hn
      cases hn
    exact relString_roundtrip hne (findNode_goodName k fs hwf hn)
  have hall : ∀ k ∈ c.sortedKeys, ∃ cf, c.lookupFile k = some cf ∧
      entrySerializable cf = true ∧ cf.relpath = some (relString k) := by
    intro k hk
    rw [mem_sortedKeys] at hk
    obtain ⟨cf, hcf⟩ : ∃ cf, c.lookupFile k = some cf := by
      have hx := lookupFile_isSome_iff.mpr hk
      rw [Option.isSome_iff_exists] at hx
      exact hx
    have hmem : (k, cf) ∈ c.files := lookupFile_mem hcf
    exact ⟨cf, hcf, hser _ hmem, hrel _ hmem⟩
  have hparse := parseManifest_save c hnd hall
    fun k hk => hkeysplit k (mem_sortedKeys.mp hk)
  refine ⟨reloadedCache c (parseIgnoreFile igFile), ?_, ?_, ?_, ?_⟩
  · unfold DirCache.load
    show (match parseManifest c.save with
      | none => none
      | some files =>
        some (true, DirCache.mk files (parseIgnoreFile igFile))) =
      some (true, reloadedCache c (parseIgnoreFile igFile))
    rw [hparse]
    rfl
  · rw [List.eq_nil_iff_forall_not_mem]
    intro x hx
    obtain ⟨hxk, _, hxlex⟩ :=
      (status_deleted_mem _ fs none defaultStatusAttrs x).mp hx
    rw [reloadedCache_keys] at hxk
    rw [hlex x (mem_sortedKeys.mp hxk)] at hxlex
    cases hxlex
  · rw [List.eq_nil_iff_forall_not_mem]
    intro x hx
    have hgetcf : ∀ cf2, (reloadedCache c (parseIgnoreFile igFile)).lookupFile x =
        some cf2 → ∀ n, findNode fs x = some n →
        cf2.compare x n defaultStatusAttrs = [] := by
      intro cf2 hcf2 n hn
      have hxk : x ∈ c.keys := by
        have : x ∈ (reloadedCache c (parseIgnoreFile igFile)).keys := by
          rw [← lookupFile_isSome_iff, hcf2]
          rfl
        rw [reloadedCache_keys] at this
        exact mem_sortedKeys.mp this
      obtain ⟨cf, hcf⟩ : ∃ cf, c.lookupFile x = some cf := by
        have hx2 := lookupFile_isSome_iff.mpr hxk
        rw [Option.isSome_iff_exists] at hx2
        exact hx2
      have hre := reloadedCache_lookup_mem c (parseIgnoreFile igFile) hnd hxk
      rw [hcf2] at hre
      have hcf2eq : cf2 = reparsedEntry cf := by
        have := Option.some_inj.mp hre
        rw [this, hcf]
        rfl
      rw [hcf2eq]
      exact reparsedEntry_compare_nil (hcmp x hxk cf n hcf hn)
    rcases (status_modified_mem _ fs none defaultStatusAttrs x).mp hx with
      ⟨_, _, cf2, n, hcf2, hn, hcne⟩ | ⟨_, _, cf2, n, hcf2, hn, hcne⟩
    · exact hcne (hgetcf cf2 hcf2 n hn)
    · exact hcne (hgetcf cf2 hcf2 n hn)
  · rw [List.eq_nil_iff_forall_not_mem]
    intro x hx
    obtain ⟨hxw, ⟨hxig, _⟩, hxnone⟩ :=
      (status_untracked_mem _ fs none defaultStatusAttrs x).mp hx
    have hxnotk : x ∉ c.keys := by
      intro hxk
      rw [reloadedCache_lookup_mem c (parseIgnoreFile igFile) hnd hxk] at hxnone
      cases hxnone
    have hxnone2 : c.lookupFile x = none := lookupFile_eq_none_iff.mpr hxnotk
    have hig2 : c.ignore x = false := by
      rw [ignore_congr (show c.ignorePatterns =
        (reloadedCache c (parseIgnoreFile igFile)).ignorePatterns from hig)]
      exact hxig
    have hmemu : x ∈ (c.status fs none defaultStatusAttrs).2.2.1 :=
      (status_untracked_mem c fs none defaultStatusAttrs x).mpr
        ⟨hxw, ⟨hig2, rfl⟩, hxnone2⟩
    rw [hu] at hmemu
    cases hmemu

end Arqvist

namespace Arqvist

def c3wFs : List FSNode := [FSNode.leaf "a.txt" false sampleMeta]

def c3wCache : DirCache := DirCache.build ⟨[], []⟩ c3wFs none false

/-- C3 witness: the amended round-trip theorem applied at a concrete cache
built over a one-file directory with clean names and no ignore file. -/
theorem c3_witness :
    ∃ c2, DirCache.load none (some c3wCache.save) = some (true, c2) ∧
      (c2.status c3wFs none defaultStatusAttrs).1 = [] ∧
      (c2.status c3wFs none defaultStatusAttrs).2.1 = [] ∧
      (c2.status c3wFs none defaultStatusAttrs).2.2.1 = [] :=
  c3_save_load_roundtrip c3wCache c3wFs none (by decide) (by decide)
    (by decide) (by decide) (by decide) (by decide) (by decide) (by decide)

end Arqvist
